import Mathlib

/-!
Verification of the in-memory file-tree model, ingestion filter, quota-bounded
persistence and selection state of the whysorush-code repository.

The definitions below are shallow embeddings of the TypeScript source:
  - the `useFileSystem` hook helpers of `PROMPT_INTEGRATION_GUIDE.md`
    (`findFileById`/`findInTree`, `removeFileById`, `renameFileById`,
    `deleteFile`, `selectFile`),
  - `src/components/CodeEditor.tsx` (`IGNORE_PATTERNS`, `shouldIgnoreFile`,
    `compressData`, `safeSetItem`, `handleDirectoryUpload`,
    `saveCurrentProject`),
  - `src/components/ProjectUploader.tsx` (`processFiles`).

JavaScript arrays become `List`, JS `Set` becomes `Finset String`, JS `Map`
becomes an association list, `Date` values become epoch milliseconds (`Nat`),
and object identity (needed because the source mutates `children` arrays in
place) is made explicit either by a separate post-state function
(`origAfterRemove`) or by an arena of nodes addressed by index (the upload
state machine).
-/

namespace Intellicode

/-! ## The tree data model (`FileSystemItem` of `src/types/fileSystem`)

`type` is `"file" | "folder"`; `size`, `content` and `children` are optional
fields (`undefined` is `none`); `lastModified` is a `Date`, embedded as epoch
milliseconds. -/

inductive FSKind where
  | file
  | folder
deriving DecidableEq, Repr

/-- One node of the file tree: fields in source order
`id, name, type, path, size, lastModified, content, children`. -/
inductive FileSystemItem where
  | mk (id : String) (name : String) (kind : FSKind) (path : String)
       (size : Option Nat) (lastModified : Nat) (content : Option String)
       (children : Option (List FileSystemItem))
deriving Repr

def FileSystemItem.id : FileSystemItem → String
  | .mk i _ _ _ _ _ _ _ => i

def FileSystemItem.name : FileSystemItem → String
  | .mk _ n _ _ _ _ _ _ => n

def FileSystemItem.kind : FileSystemItem → FSKind
  | .mk _ _ k _ _ _ _ _ => k

def FileSystemItem.path : FileSystemItem → String
  | .mk _ _ _ p _ _ _ _ => p

def FileSystemItem.size : FileSystemItem → Option Nat
  | .mk _ _ _ _ s _ _ _ => s

def FileSystemItem.content : FileSystemItem → Option String
  | .mk _ _ _ _ _ _ c _ => c

def FileSystemItem.children : FileSystemItem → Option (List FileSystemItem)
  | .mk _ _ _ _ _ _ _ cs => cs

/-! ## Tree operations of the `useFileSystem` hook
(`PROMPT_INTEGRATION_GUIDE.md`, helper functions section). -/

/-- Embeds `findInTree` inside `findFileById`: depth-first search, first
match wins; a node's children are searched before later siblings. -/
def findInTree : List FileSystemItem → String → Option FileSystemItem
  | [], _ => none
  | .mk i n k p s lm c cs :: rest, fid =>
    if i = fid then some (.mk i n k p s lm c cs)
    else
      match cs with
      | some l =>
        match findInTree l fid with
        | some found => some found
        | none => findInTree rest fid
      | none => findInTree rest fid

mutual

/-- Embeds `removeFileById`: `items.filter(...)` where the callback drops a
node whose `id` matches and otherwise reassigns `item.children` to the
recursive result.  This function is the value the call RETURNS. -/
def removeFileById : List FileSystemItem → String → List FileSystemItem
  | [], _ => []
  | item :: rest, fid =>
    if item.id = fid then removeFileById rest fid
    else removeChildrenOf item fid :: removeFileById rest fid

/-- The node value after the callback body ran `item.children =
removeFileById(item.children, fileId)` on a retained node. -/
def removeChildrenOf : FileSystemItem → String → FileSystemItem
  | .mk i n k p s lm c cs, fid =>
    match cs with
    | none => .mk i n k p s lm c none
    | some l => .mk i n k p s lm c (some (removeFileById l fid))

end

/-- Post-state of the caller's array after `removeFileById` returns: JS
`filter` does not splice the array it is given, but the callback mutates the
`children` field of every retained node in place (`item.children = ...`), and
it returns `false` for a matching node before touching its children.  So after
the call the caller's array still holds all its elements, a matching element
unchanged, every other element with its children recursively pruned. -/
def origAfterRemove : List FileSystemItem → String → List FileSystemItem
  | [], _ => []
  | item :: rest, fid =>
    (if item.id = fid then item else removeChildrenOf item fid)
      :: origAfterRemove rest fid

/-- Embeds `renameFileById`: `items.map(...)`; a matching node gets a fresh
object with only `name` replaced (children kept as they are, not recursed
into); any other node is rebuilt with recursively renamed children. -/
def renameFileById : List FileSystemItem → String → String → List FileSystemItem
  | [], _, _ => []
  | .mk i n k p s lm c cs :: rest, fid, newName =>
    (if i = fid then .mk i newName k p s lm c cs
     else
       match cs with
       | some l => .mk i n k p s lm c (some (renameFileById l fid newName))
       | none => .mk i n k p s lm c none)
      :: renameFileById rest fid newName

/-! ## Verification helpers over the tree -/

/-- Every node's name replaced by `""`, recursively; two forests are equal
under `eraseNames` exactly when they agree on everything except names. -/
def eraseNames : List FileSystemItem → List FileSystemItem
  | [] => []
  | .mk i _ k p s lm c cs :: rest =>
    .mk i "" k p s lm c
      (match cs with | some l => some (eraseNames l) | none => none)
      :: eraseNames rest

/-- All node ids occurring anywhere in a forest, in depth-first order. -/
def allIds : List FileSystemItem → List String
  | [] => []
  | .mk i _ _ _ _ _ _ cs :: rest =>
    i :: ((match cs with | some l => allIds l | none => []) ++ allIds rest)

/-- Ids of a node and all of its descendants. -/
def subtreeIds (item : FileSystemItem) : List String :=
  item.id :: (match item.children with | some l => allIds l | none => [])

/-- Ids inside subtrees rooted at nodes whose id is `fid` (not looking inside
such a subtree for further matches) — exactly the occurrences that
`removeFileById` deletes. -/
def idsUnder : List FileSystemItem → String → List String
  | [], _ => []
  | .mk i _ _ _ _ _ _ cs :: rest, fid =>
    (if i = fid then i :: (match cs with | some l => allIds l | none => [])
     else match cs with | some l => idsUnder l fid | none => [])
      ++ idsUnder rest fid

/-- Sum of `content.length` over all File nodes of a forest (a file without
content contributes zero). -/
def contentSumForest : List FileSystemItem → Nat
  | [] => 0
  | .mk _ _ k _ _ _ c cs :: rest =>
    (if k = .file then (match c with | some s => s.length | none => 0) else 0)
      + (match cs with | some l => contentSumForest l | none => 0)
      + contentSumForest rest

/-- Strong induction on the `sizeOf` of a forest; gives induction hypotheses
for both the children of a node and the remaining siblings. -/
theorem forest_ind (P : List FileSystemItem → Prop)
    (h : ∀ l, (∀ l', sizeOf l' < sizeOf l → P l') → P l) : ∀ l, P l := by
  intro l
  generalize hn : sizeOf l = n
  induction n using Nat.strong_induction_on generalizing l with
  | _ n ih =>
    apply h
    intro l' hl'
    exact ih (sizeOf l') (hn ▸ hl') l' rfl

theorem sizeOf_rest_lt (x : FileSystemItem) (rest : List FileSystemItem) :
    sizeOf rest < sizeOf (x :: rest) := by
  simp only [List.cons.sizeOf_spec]
  omega

theorem sizeOf_children_lt (i n : String) (k : FSKind) (p : String)
    (s : Option Nat) (lm : Nat) (c : Option String)
    (l' rest : List FileSystemItem) :
    sizeOf l' < sizeOf (FileSystemItem.mk i n k p s lm c (some l') :: rest) := by
  simp only [List.cons.sizeOf_spec, FileSystemItem.mk.sizeOf_spec,
    Option.some.sizeOf_spec]
  omega

/-! ## Selection state (`useFileSystem` hook)

`selectedFiles` is a JS `Set<string>`, embedded as `Finset String`. -/

/-- Embeds `selectFile`: `const newSet = multiple ? new Set(prev) : new Set();
if (newSet.has(fileId)) newSet.delete(fileId); else newSet.add(fileId);`. -/
def selectFile (prev : Finset String) (fileId : String) (multiple : Bool) :
    Finset String :=
  let newSet := if multiple then prev else ∅
  if fileId ∈ newSet then newSet.erase fileId else insert fileId newSet

/-- The state touched by the service-less branch of `deleteFile`. -/
structure LocalFSState where
  files : List FileSystemItem
  selectedFiles : Finset String

/-- Embeds the `!service` branch of `deleteFile`: the tree is pruned with
`removeFileById` and the id is deleted from the `selectedFiles` set. -/
def deleteFileLocal (st : LocalFSState) (fileId : String) : LocalFSState :=
  { files := removeFileById st.files fileId,
    selectedFiles := st.selectedFiles.erase fileId }

/-! ## Claim C3 — `selectFile(id, false)` -/

/-- Claim C3 counterexample: with `{"a"}` selected, `selectFile("a", false)`
yields `{"a"}` again, not the empty set the claim requires for a
sole-selected id, and a second application still yields `{"a"}`. -/
theorem selectFile_toggle_cex :
    selectFile {"a"} "a" false = {"a"} ∧
    selectFile (selectFile {"a"} "a" false) "a" false = {"a"} ∧
    ({"a"} : Finset String) ≠ (∅ : Finset String) := by
  refine ⟨?_, ?_, ?_⟩ <;> simp [selectFile]

/-- Claim C3 (amended): with `allowMultiple = false` the selection set always
becomes exactly `{id}`, whatever was selected before — there is no
toggle-to-deselect — and a repeated call yields `{id}` again, not `∅`. -/
theorem selectFile_single_always_selects
    (prev : Finset String) (fileId : String) :
    selectFile prev fileId false = {fileId} ∧
    selectFile (selectFile prev fileId false) fileId false = {fileId} := by
  constructor <;> simp [selectFile]

/-! ## Claim C10 — deletion prunes the selection -/

theorem remove_no_fid (fid : String) :
    ∀ l : List FileSystemItem, fid ∉ allIds (removeFileById l fid) := by
  refine forest_ind _ ?_
  intro l IH
  match l with
  | [] => simp [removeFileById, allIds]
  | .mk i n k p s lm c cs :: rest =>
    by_cases hid : (FileSystemItem.mk i n k p s lm c cs).id = fid
    · rw [removeFileById, if_pos hid]
      exact IH rest (sizeOf_rest_lt _ _)
    · rw [removeFileById, if_neg hid]
      have hi : i ≠ fid := by simpa [FileSystemItem.id] using hid
      match cs with
      | none =>
        simp only [removeChildrenOf, allIds, List.mem_cons, List.nil_append]
        push_neg
        exact ⟨fun h => hi h.symm, IH rest (sizeOf_rest_lt _ _)⟩
      | some l' =>
        simp only [removeChildrenOf, allIds, List.mem_cons, List.mem_append]
        push_neg
        exact ⟨fun h => hi h.symm, IH l' (sizeOf_children_lt _ _ _ _ _ _ _ _ _),
               IH rest (sizeOf_rest_lt _ _)⟩

/-- Claim C10: after the local (service-less) `deleteFile(id)`, the deleted id
is no longer in `selectedFiles`, and no node with that id remains in the
tree — deletion prunes selection state in addition to removing the node. -/
theorem deleteFile_prunes_selection (st : LocalFSState) (fileId : String) :
    fileId ∉ (deleteFileLocal st fileId).selectedFiles ∧
    fileId ∉ allIds (deleteFileLocal st fileId).files := by
  exact ⟨Finset.not_mem_erase _ _, remove_no_fid fileId st.files⟩

/-! ## Claim C4 — `remove` and the caller's tree value -/

theorem removeChildrenOf_id (item : FileSystemItem) (fid : String) :
    (removeChildrenOf item fid).id = item.id := by
  match item with
  | .mk i n k p s lm c cs =>
    match cs with
    | none => rw [removeChildrenOf]
    | some l => rw [removeChildrenOf]; rfl

/-- Claim C4 counterexample: removing the nested file `"a"` mutates the
caller's tree in place — after the call the original array's folder node has
lost the child — so the original tree value is NOT left as it was. -/
theorem removeFileById_mutates_cex :
    origAfterRemove
        [.mk "f" "f" .folder "f" none 0 none
          (some [.mk "a" "a" .file "f/a" none 0 none none])] "a"
      ≠ [.mk "f" "f" .folder "f" none 0 none
          (some [.mk "a" "a" .file "f/a" none 0 none none])] := by
  simp [origAfterRemove, removeChildrenOf, removeFileById, FileSystemItem.id]

/-- Claim C4 (amended): `removeFileById` does not splice the caller's
top-level array — afterwards it still holds nodes with the same ids in the
same order, and a top-level node whose id matches is itself untouched — but it
mutates retained nodes' `children` in place, so the returned tree is exactly
the caller's post-call array with top-level matches filtered out; callers
holding the old tree observe nested removals. -/
theorem removeFileById_vs_caller_array
    (items : List FileSystemItem) (fid : String) :
    (origAfterRemove items fid).map FileSystemItem.id
        = items.map FileSystemItem.id ∧
    removeFileById items fid
        = (origAfterRemove items fid).filter (fun i => i.id ≠ fid) := by
  induction items with
  | nil => simp [origAfterRemove, removeFileById]
  | cons item rest ih =>
    constructor
    · rw [origAfterRemove]
      by_cases hid : item.id = fid
      · simp only [if_pos hid, List.map_cons, ih.1]
      · simp only [if_neg hid, List.map_cons, ih.1, removeChildrenOf_id]
    · rw [origAfterRemove, removeFileById]
      by_cases hid : item.id = fid
      · simp only [if_pos hid, List.filter_cons]
        rw [if_neg (by simp [hid])]
        exact ih.2
      · simp only [if_neg hid, List.filter_cons]
        rw [if_pos (by simp [removeChildrenOf_id, hid])]
        rw [ih.2]

/-! ## Claim C5 — `remove` deletes exactly the matched subtree -/

theorem findInTree_isSome_iff (fid : String) :
    ∀ l, (findInTree l fid).isSome ↔ fid ∈ allIds l := by
  refine forest_ind _ ?_
  intro l IH
  match l with
  | [] => simp [findInTree, allIds]
  | .mk i n k p s lm c cs :: rest =>
    match cs with
    | some l' =>
      by_cases hi : i = fid
      · rw [findInTree, if_pos hi]
        simp [allIds, hi]
      · rw [findInTree, if_neg hi]
        have hir : ¬ fid = i := fun h => hi h.symm
        have IHc := IH l' (sizeOf_children_lt _ _ _ _ _ _ _ _ _)
        have IHr := IH rest (sizeOf_rest_lt _ _)
        cases hfind : findInTree l' fid with
        | some f =>
          have : fid ∈ allIds l' := IHc.mp (by rw [hfind]; rfl)
          simp [allIds, hir, this]
        | none =>
          have hnc : fid ∉ allIds l' := fun hmem => by
            have := IHc.mpr hmem
            rw [hfind] at this
            exact Bool.noConfusion this
          simp [allIds, hir, hnc, IHr]
    | none =>
      by_cases hi : i = fid
      · rw [findInTree, if_pos hi]
        simp [allIds, hi]
      · rw [findInTree, if_neg hi]
        have hir : ¬ fid = i := fun h => hi h.symm
        have IHr := IH rest (sizeOf_rest_lt _ _)
        simp [allIds, hir, IHr]

theorem idsUnder_sub_allIds (fid : String) :
    ∀ l, ∀ y ∈ idsUnder l fid, y ∈ allIds l := by
  refine forest_ind _ ?_
  intro l IH
  match l with
  | [] => simp [idsUnder]
  | .mk i n k p s lm c cs :: rest =>
    intro y hy
    match cs with
    | some l' =>
      rw [idsUnder] at hy
      rw [allIds]
      rcases List.mem_append.mp hy with hy | hy
      · by_cases hi : i = fid
        · rw [if_pos hi] at hy
          rcases List.mem_cons.mp hy with h | h
          · simp [h]
          · simp [h]
        · rw [if_neg hi] at hy
          have := IH l' (sizeOf_children_lt _ _ _ _ _ _ _ _ _) y hy
          simp [this]
      · have := IH rest (sizeOf_rest_lt _ _) y hy
        simp [this]
    | none =>
      rw [idsUnder] at hy
      rw [allIds]
      rcases List.mem_append.mp hy with hy | hy
      · by_cases hi : i = fid
        · rw [if_pos hi] at hy
          simp only [List.mem_singleton] at hy
          simp [hy]
        · rw [if_neg hi] at hy
          simp at hy
      · have := IH rest (sizeOf_rest_lt _ _) y hy
        simp [this]

theorem allIds_remove_sub (fid : String) :
    ∀ l, ∀ y ∈ allIds (removeFileById l fid), y ∈ allIds l := by
  refine forest_ind _ ?_
  intro l IH
  match l with
  | [] => simp [removeFileById]
  | .mk i n k p s lm c cs :: rest =>
    intro y hy
    rw [removeFileById] at hy
    match cs with
    | some l' =>
      by_cases hi : (FileSystemItem.mk i n k p s lm c (some l')).id = fid
      · rw [if_pos hi] at hy
        have := IH rest (sizeOf_rest_lt _ _) y hy
        rw [allIds]
        simp [this]
      · rw [if_neg hi] at hy
        rw [show removeChildrenOf (.mk i n k p s lm c (some l')) fid
              = .mk i n k p s lm c (some (removeFileById l' fid)) from rfl] at hy
        rw [allIds] at hy ⊢
        rcases List.mem_cons.mp hy with hy | hy
        · simp [hy]
        · rcases List.mem_append.mp hy with hy | hy
          · have := IH l' (sizeOf_children_lt _ _ _ _ _ _ _ _ _) y hy
            simp [this]
          · have := IH rest (sizeOf_rest_lt _ _) y hy
            simp [this]
    | none =>
      by_cases hi : (FileSystemItem.mk i n k p s lm c none).id = fid
      · rw [if_pos hi] at hy
        have := IH rest (sizeOf_rest_lt _ _) y hy
        rw [allIds]
        simp [this]
      · rw [if_neg hi] at hy
        rw [show removeChildrenOf (.mk i n k p s lm c none) fid
              = .mk i n k p s lm c none from rfl] at hy
        rw [allIds] at hy ⊢
        rcases List.mem_cons.mp hy with hy | hy
        · simp [hy]
        · simp only [List.nil_append] at hy
          have := IH rest (sizeOf_rest_lt _ _) y hy
          simp [this]

theorem idsUnder_nil_of_not_mem (fid : String) :
    ∀ l, fid ∉ allIds l → idsUnder l fid = [] := by
  refine forest_ind _ ?_
  intro l IH
  match l with
  | [] => intro _; rw [idsUnder]
  | .mk i n k p s lm c cs :: rest =>
    intro hmem
    match cs with
    | some l' =>
      rw [allIds] at hmem
      have hi : ¬ i = fid := fun h => hmem (by simp [h])
      have hrest : fid ∉ allIds rest := fun h => hmem (by simp [h])
      have hc : fid ∉ allIds l' := fun h => hmem (by simp [h])
      rw [idsUnder, if_neg hi, IH rest (sizeOf_rest_lt _ _) hrest,
        IH l' (sizeOf_children_lt _ _ _ _ _ _ _ _ _) hc]
      rfl
    | none =>
      rw [allIds] at hmem
      have hi : ¬ i = fid := fun h => hmem (by simp [h])
      have hrest : fid ∉ allIds rest := fun h => hmem (by simp [h])
      rw [idsUnder, if_neg hi, IH rest (sizeOf_rest_lt _ _) hrest]
      rfl

theorem remove_kills_idsUnder (fid : String) :
    ∀ l : List FileSystemItem, (allIds l).Nodup →
      ∀ y ∈ idsUnder l fid, y ∉ allIds (removeFileById l fid) := by
  refine forest_ind _ ?_
  intro l IH
  match l with
  | [] => intro _ y hy; rw [idsUnder] at hy; exact absurd hy (List.not_mem_nil y)
  | .mk i n k p s lm c cs :: rest =>
    intro hnd y hy
    match cs with
    | some l' =>
      rw [allIds] at hnd
      have hnd' := List.nodup_cons.mp hnd
      obtain ⟨hiM, hndApp⟩ := hnd'
      obtain ⟨hndC, hndR, hdisj⟩ := List.nodup_append.mp hndApp
      rw [idsUnder] at hy
      rw [removeFileById]
      by_cases hi : i = fid
      · rw [if_pos hi] at hy
        rw [if_pos (show (FileSystemItem.mk i n k p s lm c (some l')).id = fid
              from hi)]
        rcases List.mem_append.mp hy with hy | hy
        · intro hmem
          have hyR : y ∈ allIds rest := allIds_remove_sub fid rest y hmem
          rcases List.mem_cons.mp hy with h | h
          · exact hiM (h ▸ List.mem_append_right _ hyR)
          · exact hdisj h hyR
        · exact IH rest (sizeOf_rest_lt _ _) hndR y hy
      · rw [if_neg hi] at hy
        rw [if_neg (show ¬ (FileSystemItem.mk i n k p s lm c (some l')).id = fid
              from hi)]
        rw [show removeChildrenOf (.mk i n k p s lm c (some l')) fid
              = .mk i n k p s lm c (some (removeFileById l' fid)) from rfl]
        rw [allIds]
        intro hmem
        rcases List.mem_cons.mp hmem with h | h
        · rcases List.mem_append.mp hy with hy | hy
          · exact hiM (h ▸ List.mem_append_left _ (idsUnder_sub_allIds fid l' y hy))
          · exact hiM (h ▸ List.mem_append_right _ (idsUnder_sub_allIds fid rest y hy))
        · rcases List.mem_append.mp h with h | h
          · rcases List.mem_append.mp hy with hy | hy
            · exact IH l' (sizeOf_children_lt _ _ _ _ _ _ _ _ _) hndC y hy h
            · exact hdisj (allIds_remove_sub fid l' y h)
                (idsUnder_sub_allIds fid rest y hy)
          · rcases List.mem_append.mp hy with hy | hy
            · exact hdisj (idsUnder_sub_allIds fid l' y hy)
                (allIds_remove_sub fid rest y h)
            · exact IH rest (sizeOf_rest_lt _ _) hndR y hy h
    | none =>
      rw [allIds] at hnd
      simp only [List.nil_append] at hnd
      have hnd' := List.nodup_cons.mp hnd
      obtain ⟨hiM, hndR⟩ := hnd'
      rw [idsUnder] at hy
      rw [removeFileById]
      by_cases hi : i = fid
      · rw [if_pos hi] at hy
        rw [if_pos (show (FileSystemItem.mk i n k p s lm c none).id = fid from hi)]
        rcases List.mem_append.mp hy with hy | hy
        · simp only [List.mem_singleton] at hy
          intro hmem
          exact hiM (hy ▸ allIds_remove_sub fid rest y hmem)
        · exact IH rest (sizeOf_rest_lt _ _) hndR y hy
      · rw [if_neg hi] at hy
        rw [if_neg (show ¬ (FileSystemItem.mk i n k p s lm c none).id = fid from hi)]
        rw [show removeChildrenOf (.mk i n k p s lm c none) fid
              = .mk i n k p s lm c none from rfl]
        rw [allIds]
        simp only [List.nil_append] at hy ⊢
        intro hmem
        rcases List.mem_cons.mp hmem with h | h
        · exact hiM (h ▸ idsUnder_sub_allIds fid rest y hy)
        · exact IH rest (sizeOf_rest_lt _ _) hndR y hy h

theorem remove_keeps_others (fid : String) :
    ∀ l : List FileSystemItem, ∀ y ∈ allIds l,
      y ∉ idsUnder l fid → y ∈ allIds (removeFileById l fid) := by
  refine forest_ind _ ?_
  intro l IH
  match l with
  | [] => intro y hy; rw [allIds] at hy; exact absurd hy (List.not_mem_nil y)
  | .mk i n k p s lm c cs :: rest =>
    intro y hy hu
    match cs with
    | some l' =>
      rw [allIds] at hy
      rw [idsUnder] at hu
      rw [removeFileById]
      by_cases hi : i = fid
      · rw [if_pos hi] at hu
        rw [if_pos (show (FileSystemItem.mk i n k p s lm c (some l')).id = fid
              from hi)]
        have hyR : y ∈ allIds rest := by
          rcases List.mem_cons.mp hy with h | h
          · exact absurd (List.mem_append_left _ (h ▸ List.mem_cons_self i _)) hu
          · rcases List.mem_append.mp h with h | h
            · exact absurd (List.mem_append_left _ (List.mem_cons_of_mem i h)) hu
            · exact h
        exact IH rest (sizeOf_rest_lt _ _) y hyR
          (fun hr => hu (List.mem_append_right _ hr))
      · rw [if_neg hi] at hu
        rw [if_neg (show ¬ (FileSystemItem.mk i n k p s lm c (some l')).id = fid
              from hi)]
        rw [show removeChildrenOf (.mk i n k p s lm c (some l')) fid
              = .mk i n k p s lm c (some (removeFileById l' fid)) from rfl]
        rw [allIds]
        rcases List.mem_cons.mp hy with h | h
        · exact h ▸ List.mem_cons_self _ _
        · rcases List.mem_append.mp h with h | h
          · exact List.mem_cons_of_mem _ (List.mem_append_left _
              (IH l' (sizeOf_children_lt _ _ _ _ _ _ _ _ _) y h
                (fun hc => hu (List.mem_append_left _ hc))))
          · exact List.mem_cons_of_mem _ (List.mem_append_right _
              (IH rest (sizeOf_rest_lt _ _) y h
                (fun hr => hu (List.mem_append_right _ hr))))
    | none =>
      rw [allIds] at hy
      simp only [List.nil_append] at hy
      rw [idsUnder] at hu
      rw [removeFileById]
      by_cases hi : i = fid
      · rw [if_pos hi] at hu
        rw [if_pos (show (FileSystemItem.mk i n k p s lm c none).id = fid from hi)]
        have hyR : y ∈ allIds rest := by
          rcases List.mem_cons.mp hy with h | h
          · exact absurd (List.mem_append_left _ (h ▸ List.mem_cons_self i _)) hu
          · exact h
        exact IH rest (sizeOf_rest_lt _ _) y hyR
          (fun hr => hu (List.mem_append_right _ hr))
      · rw [if_neg hi] at hu
        rw [if_neg (show ¬ (FileSystemItem.mk i n k p s lm c none).id = fid from hi)]
        rw [show removeChildrenOf (.mk i n k p s lm c none) fid
              = .mk i n k p s lm c none from rfl]
        rw [allIds]
        simp only [List.nil_append] at hu ⊢
        rcases List.mem_cons.mp hy with h | h
        · exact h ▸ List.mem_cons_self _ _
        · exact List.mem_cons_of_mem _
            (IH rest (sizeOf_rest_lt _ _) y h (fun hr => hu hr))

theorem findInTree_some_spec (fid : String) :
    ∀ l : List FileSystemItem, ∀ node, findInTree l fid = some node →
      node.id = fid ∧ ∀ y ∈ subtreeIds node, y ∈ idsUnder l fid := by
  refine forest_ind _ ?_
  intro l IH
  match l with
  | [] => intro node h; rw [findInTree] at h; exact absurd h (Option.noConfusion)
  | .mk i n k p s lm c cs :: rest =>
    intro node hfind
    match cs with
    | some l' =>
      by_cases hi : i = fid
      · rw [findInTree, if_pos hi] at hfind
        have hnode := Option.some.inj hfind
        subst hnode
        refine ⟨hi, ?_⟩
        intro y hy
        rw [idsUnder, if_pos hi]
        exact List.mem_append_left _ (by simpa [subtreeIds, FileSystemItem.id,
          FileSystemItem.children] using hy)
      · rw [findInTree, if_neg hi] at hfind
        rw [idsUnder, if_neg hi]
        cases hf : findInTree l' fid with
        | some f =>
          rw [hf] at hfind
          have hnode := Option.some.inj hfind
          subst hnode
          obtain ⟨h1, h2⟩ := IH l' (sizeOf_children_lt _ _ _ _ _ _ _ _ _) f hf
          exact ⟨h1, fun y hy => List.mem_append_left _ (h2 y hy)⟩
        | none =>
          rw [hf] at hfind
          obtain ⟨h1, h2⟩ := IH rest (sizeOf_rest_lt _ _) node hfind
          exact ⟨h1, fun y hy => List.mem_append_right _ (h2 y hy)⟩
    | none =>
      by_cases hi : i = fid
      · rw [findInTree, if_pos hi] at hfind
        have hnode := Option.some.inj hfind
        subst hnode
        refine ⟨hi, ?_⟩
        intro y hy
        rw [idsUnder, if_pos hi]
        exact List.mem_append_left _ (by simpa [subtreeIds, FileSystemItem.id,
          FileSystemItem.children] using hy)
      · rw [findInTree, if_neg hi] at hfind
        rw [idsUnder, if_neg hi]
        obtain ⟨h1, h2⟩ := IH rest (sizeOf_rest_lt _ _) node hfind
        exact ⟨h1, fun y hy => List.mem_append_right _ (h2 y hy)⟩

theorem idsUnder_sub_subtree (fid : String) :
    ∀ l : List FileSystemItem, ∀ node, (allIds l).Nodup →
      findInTree l fid = some node →
      ∀ y ∈ idsUnder l fid, y ∈ subtreeIds node := by
  refine forest_ind _ ?_
  intro l IH
  match l with
  | [] => intro node _ h; rw [findInTree] at h; exact absurd h (Option.noConfusion)
  | .mk i n k p s lm c cs :: rest =>
    intro node hnd hfind y hy
    match cs with
    | some l' =>
      rw [allIds] at hnd
      obtain ⟨hiM, hndApp⟩ := List.nodup_cons.mp hnd
      obtain ⟨hndC, hndR, hdisj⟩ := List.nodup_append.mp hndApp
      rw [idsUnder] at hy
      by_cases hi : i = fid
      · rw [findInTree, if_pos hi] at hfind
        have hnode := Option.some.inj hfind
        subst hnode
        rw [if_pos hi] at hy
        rcases List.mem_append.mp hy with hy | hy
        · simpa [subtreeIds, FileSystemItem.id, FileSystemItem.children] using hy
        · exfalso
          by_cases hf : fid ∈ allIds rest
          · exact hiM (hi ▸ List.mem_append_right _ hf)
          · rw [idsUnder_nil_of_not_mem fid rest hf] at hy
            exact absurd hy (List.not_mem_nil y)
      · rw [findInTree, if_neg hi] at hfind
        rw [if_neg hi] at hy
        cases hf : findInTree l' fid with
        | some f =>
          rw [hf] at hfind
          have hnode := Option.some.inj hfind
          subst hnode
          rcases List.mem_append.mp hy with hy | hy
          · exact IH l' (sizeOf_children_lt _ _ _ _ _ _ _ _ _) f hndC hf y hy
          · exfalso
            have hfl : fid ∈ allIds l' := (findInTree_isSome_iff fid l').mp
              (by rw [hf]; rfl)
            by_cases hr : fid ∈ allIds rest
            · exact hdisj hfl hr
            · rw [idsUnder_nil_of_not_mem fid rest hr] at hy
              exact absurd hy (List.not_mem_nil y)
        | none =>
          rw [hf] at hfind
          rcases List.mem_append.mp hy with hy | hy
          · exfalso
            by_cases hc : fid ∈ allIds l'
            · have := (findInTree_isSome_iff fid l').mpr hc
              rw [hf] at this
              exact Bool.noConfusion this
            · rw [idsUnder_nil_of_not_mem fid l' hc] at hy
              exact absurd hy (List.not_mem_nil y)
          · exact IH rest (sizeOf_rest_lt _ _) node hndR hfind y hy
    | none =>
      rw [allIds] at hnd
      simp only [List.nil_append] at hnd
      obtain ⟨hiM, hndR⟩ := List.nodup_cons.mp hnd
      rw [idsUnder] at hy
      by_cases hi : i = fid
      · rw [findInTree, if_pos hi] at hfind
        have hnode := Option.some.inj hfind
        subst hnode
        rw [if_pos hi] at hy
        rcases List.mem_append.mp hy with hy | hy
        · simpa [subtreeIds, FileSystemItem.id, FileSystemItem.children] using hy
        · exfalso
          by_cases hf : fid ∈ allIds rest
          · exact hiM (hi ▸ hf)
          · rw [idsUnder_nil_of_not_mem fid rest hf] at hy
            exact absurd hy (List.not_mem_nil y)
      · rw [findInTree, if_neg hi] at hfind
        rw [if_neg hi] at hy
        simp only [List.nil_append] at hy
        exact IH rest (sizeOf_rest_lt _ _) node hndR hfind y hy

/-- Claim C5: in a tree with unique node ids, removing a Folder id deletes
the folder node and transitively every descendant — `findInTree` afterwards
returns `none` for the folder's id and for every descendant id — while every
node outside the removed subtree is still found. -/
theorem removeFileById_complete (items : List FileSystemItem) (fid : String)
    (node : FileSystemItem)
    (hnd : (allIds items).Nodup)
    (hfind : findInTree items fid = some node)
    (_hfold : node.kind = .folder) :
    (∀ y ∈ subtreeIds node, findInTree (removeFileById items fid) y = none) ∧
    (∀ y ∈ allIds items, y ∉ subtreeIds node →
      (findInTree (removeFileById items fid) y).isSome) := by
  constructor
  · intro y hy
    have h1 : y ∈ idsUnder items fid :=
      (findInTree_some_spec fid items node hfind).2 y hy
    have h2 : y ∉ allIds (removeFileById items fid) :=
      remove_kills_idsUnder fid items hnd y h1
    cases hcase : findInTree (removeFileById items fid) y with
    | none => rfl
    | some f =>
      exact absurd ((findInTree_isSome_iff y (removeFileById items fid)).mp
        (by rw [hcase]; rfl)) h2
  · intro y hy hns
    have hnu : y ∉ idsUnder items fid :=
      fun hu => hns (idsUnder_sub_subtree fid items node hnd hfind y hu)
    exact (findInTree_isSome_iff y (removeFileById items fid)).mpr
      (remove_keeps_others fid items y hy hnu)

/-- Concrete tree used by the C5 witness: a folder `"f"` containing file
`"a"`, next to a top-level file `"b"`. -/
def witTreeC5 : List FileSystemItem :=
  [.mk "f" "f" .folder "f" none 0 none
      (some [.mk "a" "a" .file "f/a" none 0 none none]),
   .mk "b" "b" .file "b" none 0 none none]

/-- Witness for C5: removing folder `"f"` from the concrete tree makes the
descendant `"a"` unfindable while the unrelated `"b"` is still found. -/
theorem removeFileById_complete_witness :
    findInTree (removeFileById witTreeC5 "f") "a" = none ∧
    (findInTree (removeFileById witTreeC5 "f") "b").isSome := by
  have h := removeFileById_complete witTreeC5 "f"
    (.mk "f" "f" .folder "f" none 0 none
      (some [.mk "a" "a" .file "f/a" none 0 none none]))
    (by simp [witTreeC5, allIds])
    (by simp [witTreeC5, findInTree])
    (by rfl)
  exact ⟨h.1 "a" (by simp [subtreeIds, FileSystemItem.id,
      FileSystemItem.children, allIds]),
    h.2 "b" (by simp [witTreeC5, allIds])
      (by simp [subtreeIds, FileSystemItem.id, FileSystemItem.children, allIds])⟩

/-! ## Claim C6 — `rename` updates only the matched node's `name` -/

theorem eraseNames_rename (fid nn : String) :
    ∀ l : List FileSystemItem,
      eraseNames (renameFileById l fid nn) = eraseNames l := by
  refine forest_ind _ ?_
  intro l IH
  match l with
  | [] => rw [renameFileById]
  | .mk i n k p s lm c cs :: rest =>
    match cs with
    | some l' =>
      rw [renameFileById]
      by_cases hi : i = fid
      · rw [if_pos hi, eraseNames, eraseNames,
          IH rest (sizeOf_rest_lt _ _)]
      · rw [if_neg hi, eraseNames, eraseNames,
          IH rest (sizeOf_rest_lt _ _),
          IH l' (sizeOf_children_lt _ _ _ _ _ _ _ _ _)]
    | none =>
      rw [renameFileById]
      by_cases hi : i = fid
      · rw [if_pos hi, eraseNames, eraseNames, IH rest (sizeOf_rest_lt _ _)]
      · rw [if_neg hi, eraseNames, eraseNames, IH rest (sizeOf_rest_lt _ _)]

theorem allIds_rename (fid nn : String) :
    ∀ l : List FileSystemItem, allIds (renameFileById l fid nn) = allIds l := by
  refine forest_ind _ ?_
  intro l IH
  match l with
  | [] => rw [renameFileById]
  | .mk i n k p s lm c cs :: rest =>
    match cs with
    | some l' =>
      rw [renameFileById]
      by_cases hi : i = fid
      · rw [if_pos hi, allIds, allIds, IH rest (sizeOf_rest_lt _ _)]
      · rw [if_neg hi, allIds, allIds, IH rest (sizeOf_rest_lt _ _),
          IH l' (sizeOf_children_lt _ _ _ _ _ _ _ _ _)]
    | none =>
      rw [renameFileById]
      by_cases hi : i = fid
      · rw [if_pos hi, allIds, allIds, IH rest (sizeOf_rest_lt _ _)]
      · rw [if_neg hi, allIds, allIds, IH rest (sizeOf_rest_lt _ _)]

theorem rename_find_fid (fid nn : String) :
    ∀ l : List FileSystemItem,
      ∀ (i0 n0 : String) (k0 : FSKind) (p0 : String) (s0 : Option Nat)
        (lm0 : Nat) (c0 : Option String) (cs0 : Option (List FileSystemItem)),
      findInTree l fid = some (.mk i0 n0 k0 p0 s0 lm0 c0 cs0) →
      findInTree (renameFileById l fid nn) fid
        = some (.mk i0 nn k0 p0 s0 lm0 c0 cs0) := by
  refine forest_ind _ ?_
  intro l IH
  match l with
  | [] =>
    intro i0 n0 k0 p0 s0 lm0 c0 cs0 h
    rw [findInTree] at h
    exact absurd h (Option.noConfusion)
  | .mk i n k p s lm c cs :: rest =>
    intro i0 n0 k0 p0 s0 lm0 c0 cs0 hfind
    match cs with
    | some l' =>
      by_cases hi : i = fid
      · rw [findInTree, if_pos hi] at hfind
        have h' := Option.some.inj hfind
        simp only [FileSystemItem.mk.injEq] at h'
        obtain ⟨e1, e2, e3, e4, e5, e6, e7, e8⟩ := h'
        subst e1; subst e2; subst e3; subst e4; subst e5; subst e6; subst e7
        subst e8
        rw [renameFileById, if_pos hi, findInTree, if_pos hi]
      · rw [findInTree, if_neg hi] at hfind
        rw [renameFileById, if_neg hi, findInTree, if_neg hi]
        cases hf : findInTree l' fid with
        | some f =>
          rw [hf] at hfind
          rw [IH l' (sizeOf_children_lt _ _ _ _ _ _ _ _ _)
            i0 n0 k0 p0 s0 lm0 c0 cs0 (hf.trans hfind)]
        | none =>
          rw [hf] at hfind
          have hnone : findInTree (renameFileById l' fid nn) fid = none := by
            cases hg : findInTree (renameFileById l' fid nn) fid with
            | none => rfl
            | some g =>
              exfalso
              have hmem : fid ∈ allIds (renameFileById l' fid nn) :=
                (findInTree_isSome_iff fid _).mp (by rw [hg]; rfl)
              rw [allIds_rename fid nn l'] at hmem
              have := (findInTree_isSome_iff fid l').mpr hmem
              rw [hf] at this
              exact Bool.noConfusion this
          rw [hnone]
          exact IH rest (sizeOf_rest_lt _ _) i0 n0 k0 p0 s0 lm0 c0 cs0 hfind
    | none =>
      by_cases hi : i = fid
      · rw [findInTree, if_pos hi] at hfind
        have h' := Option.some.inj hfind
        simp only [FileSystemItem.mk.injEq] at h'
        obtain ⟨e1, e2, e3, e4, e5, e6, e7, e8⟩ := h'
        subst e1; subst e2; subst e3; subst e4; subst e5; subst e6; subst e7
        subst e8
        rw [renameFileById, if_pos hi, findInTree, if_pos hi]
      · rw [findInTree, if_neg hi] at hfind
        rw [renameFileById, if_neg hi, findInTree, if_neg hi]
        exact IH rest (sizeOf_rest_lt _ _) i0 n0 k0 p0 s0 lm0 c0 cs0 hfind

theorem rename_find_other (fid nn : String) :
    ∀ l : List FileSystemItem, ∀ y, y ≠ fid →
      Option.map FileSystemItem.name (findInTree (renameFileById l fid nn) y)
        = Option.map FileSystemItem.name (findInTree l y) := by
  refine forest_ind _ ?_
  intro l IH
  match l with
  | [] => intro y _; rw [renameFileById]
  | .mk i n k p s lm c cs :: rest =>
    intro y hy
    match cs with
    | some l' =>
      by_cases hi : i = fid
      · have hyi : ¬ i = y := fun h => hy (h.symm.trans hi)
        rw [renameFileById, if_pos hi, findInTree, if_neg hyi,
          findInTree, if_neg hyi]
        cases hf : findInTree l' y with
        | some f => rfl
        | none => exact IH rest (sizeOf_rest_lt _ _) y hy
      · rw [renameFileById, if_neg hi]
        by_cases hyi : i = y
        · rw [findInTree, if_pos hyi, findInTree, if_pos hyi]
          rfl
        · rw [findInTree, if_neg hyi, findInTree, if_neg hyi]
          have IHc := IH l' (sizeOf_children_lt _ _ _ _ _ _ _ _ _) y hy
          cases hf : findInTree l' y with
          | some f =>
            rw [hf] at IHc
            cases hg : findInTree (renameFileById l' fid nn) y with
            | some g =>
              rw [hg] at IHc
              simp only [Option.map_some'] at IHc ⊢
              exact IHc
            | none =>
              rw [hg] at IHc
              exact absurd IHc (by simp)
          | none =>
            rw [hf] at IHc
            cases hg : findInTree (renameFileById l' fid nn) y with
            | some g =>
              rw [hg] at IHc
              exact absurd IHc (by simp)
            | none =>
              exact IH rest (sizeOf_rest_lt _ _) y hy
    | none =>
      by_cases hi : i = fid
      · have hyi : ¬ i = y := fun h => hy (h.symm.trans hi)
        rw [renameFileById, if_pos hi, findInTree, if_neg hyi,
          findInTree, if_neg hyi]
        exact IH rest (sizeOf_rest_lt _ _) y hy
      · by_cases hyi : i = y
        · rw [renameFileById, if_neg hi, findInTree, if_pos hyi,
            findInTree, if_pos hyi]
        · rw [renameFileById, if_neg hi, findInTree, if_neg hyi,
            findInTree, if_neg hyi]
          exact IH rest (sizeOf_rest_lt _ _) y hy

/-- Claim C6: `renameFileById` changes only the `name` of the node whose id
matches.  (1) Erasing all names, the renamed forest equals the original — so
every node's `id`, `path`, `kind`, `size`, `content` and the whole tree
structure, in particular every descendant's `path` string, are unchanged.
(2) The matched node afterwards carries the new name with all other fields,
children included, exactly as before.  (3) Looking up any other id yields a
node with an unchanged name. -/
theorem renameFileById_frame (items : List FileSystemItem)
    (fid newName : String)
    (i0 n0 : String) (k0 : FSKind) (p0 : String) (s0 : Option Nat) (lm0 : Nat)
    (c0 : Option String) (cs0 : Option (List FileSystemItem))
    (hfind : findInTree items fid = some (.mk i0 n0 k0 p0 s0 lm0 c0 cs0)) :
    eraseNames (renameFileById items fid newName) = eraseNames items ∧
    findInTree (renameFileById items fid newName) fid
      = some (.mk i0 newName k0 p0 s0 lm0 c0 cs0) ∧
    ∀ y, y ≠ fid →
      Option.map FileSystemItem.name
          (findInTree (renameFileById items fid newName) y)
        = Option.map FileSystemItem.name (findInTree items y) := by
  exact ⟨eraseNames_rename fid newName items,
    rename_find_fid fid newName items i0 n0 k0 p0 s0 lm0 c0 cs0 hfind,
    fun y hy => rename_find_other fid newName items y hy⟩

/-- Witness for C6: renaming folder `"f"` to `"g"` in the concrete tree
keeps structure and other names, and the folder keeps its `path` and
children. -/
theorem renameFileById_frame_witness :
    eraseNames (renameFileById witTreeC5 "f" "g") = eraseNames witTreeC5 ∧
    findInTree (renameFileById witTreeC5 "f" "g") "f"
      = some (.mk "f" "g" .folder "f" none 0 none
          (some [.mk "a" "a" .file "f/a" none 0 none none])) ∧
    ∀ y, y ≠ "f" →
      Option.map FileSystemItem.name
          (findInTree (renameFileById witTreeC5 "f" "g") y)
        = Option.map FileSystemItem.name (findInTree witTreeC5 y) := by
  exact renameFileById_frame witTreeC5 "f" "g" "f" "f" .folder "f" none 0 none
    (some [.mk "a" "a" .file "f/a" none 0 none none])
    (by simp [witTreeC5, findInTree])

/-! ## JS string primitives

Models of the JavaScript platform functions the ingestion code calls:
`String.prototype.split('/')`, `Array.prototype.join('/')`,
`String.prototype.toLowerCase` (the inputs are ASCII),
`String.prototype.includes`, and `RegExp.prototype.test` for the regexes
that `shouldIgnoreFile` builds out of `*` patterns. -/

def splitSlashAux : List Char → List Char → List String
  | [], acc => [String.mk acc.reverse]
  | c :: rest, acc =>
    if c = '/' then String.mk acc.reverse :: splitSlashAux rest []
    else splitSlashAux rest (c :: acc)

/-- Models `s.split('/')`: always at least one piece, `""` yields `[""]`. -/
def splitSlash (s : String) : List String :=
  splitSlashAux s.data []

/-- Models `parts.join('/')`. -/
def joinSlash : List String → String
  | [] => ""
  | [x] => x
  | x :: y :: rest => x ++ "/" ++ joinSlash (y :: rest)

/-- Models `toLowerCase` on the ASCII range (all inputs here are ASCII). -/
def jsCharLower (c : Char) : Char :=
  if 'A' ≤ c ∧ c ≤ 'Z' then Char.ofNat (c.toNat + 32) else c

def jsToLower (s : String) : String :=
  String.mk (s.data.map jsCharLower)

/-- Models `hay.startsWith(pre)`. -/
def strBeginsWith (s pre : String) : Bool :=
  pre.data.isPrefixOf s.data

/-- Models `hay.endsWith(suf)`. -/
def strFinishesWith (s suf : String) : Bool :=
  suf.data.isSuffixOf s.data

/-- Models `hay.includes(needle)`. -/
def strIncludes (hay needle : String) : Bool :=
  hay.data.tails.any (fun t => needle.data.isPrefixOf t)

/-- Token alphabet of the regexes the source builds by replacing every star
of a deny-list pattern with dot-star: literal characters, a dot (any one
char, from literal dots in the pattern) and dot-star (any run). -/
inductive RTok where
  | lit (c : Char)
  | anyChar
  | anyStar
deriving DecidableEq, Repr

/-- Models the source's replacement of every `*` by `.` followed by `*`
before the pattern string is handed to `new RegExp`. -/
def replaceStar : List Char → List Char
  | [] => []
  | c :: rest =>
    if c = '*' then '.' :: '*' :: replaceStar rest else c :: replaceStar rest

def tokensOf : List Char → List RTok
  | [] => []
  | '.' :: '*' :: rest => .anyStar :: tokensOf rest
  | '.' :: rest => .anyChar :: tokensOf rest
  | c :: rest => .lit c :: tokensOf rest

/-- Anchored match of a token sequence against a prefix of `s`; trailing
input is allowed (as in an unanchored JS `test`, the match need not reach the
end), and dot-star may consume any number of characters. -/
def matchHere : List RTok → List Char → Bool
  | [], _ => true
  | .lit c :: ts, x :: xs => (x = c) && matchHere ts xs
  | .lit _ :: _, [] => false
  | .anyChar :: ts, _ :: xs => matchHere ts xs
  | .anyChar :: _, [] => false
  | .anyStar :: ts, s => s.tails.any (fun t => matchHere ts t)

/-- Models `regex.test(s)`: unanchored, the match may start anywhere. -/
def regexTest (ts : List RTok) (s : List Char) : Bool :=
  s.tails.any (fun t => matchHere ts t)

/-! ### Split/join inversion lemmas -/

theorem splitSlashAux_no_slash (l : List Char) :
    ∀ acc, '/' ∉ l →
      splitSlashAux l acc = [String.mk (acc.reverse ++ l)] := by
  induction l with
  | nil => intro acc _; simp [splitSlashAux]
  | cons c rest ih =>
    intro acc hns
    have hc : ¬ c = '/' := fun h => hns (h ▸ List.mem_cons_self _ _)
    have hrest : '/' ∉ rest := fun h => hns (List.mem_cons_of_mem _ h)
    rw [splitSlashAux, if_neg hc, ih (c :: acc) hrest]
    simp

theorem splitSlashAux_break (x : List Char) (J : List Char) :
    ∀ acc, '/' ∉ x →
      splitSlashAux (x ++ '/' :: J) acc
        = String.mk (acc.reverse ++ x) :: splitSlashAux J [] := by
  induction x with
  | nil =>
    intro acc _
    simp [splitSlashAux]
  | cons c rest ih =>
    intro acc hns
    have hc : ¬ c = '/' := fun h => hns (h ▸ List.mem_cons_self _ _)
    have hrest : '/' ∉ rest := fun h => hns (List.mem_cons_of_mem _ h)
    rw [List.cons_append, splitSlashAux, if_neg hc, ih (c :: acc) hrest]
    simp

theorem mk_data (s : String) : String.mk s.data = s := by
  cases s
  rfl

/-- Splitting a join recovers the segments, provided no segment contains a
slash (true of anything that came out of `splitSlash`). -/
theorem splitSlash_joinSlash (l : List String) (hne : l ≠ [])
    (hns : ∀ x ∈ l, '/' ∉ x.data) :
    splitSlash (joinSlash l) = l := by
  induction l with
  | nil => exact absurd rfl hne
  | cons x rest ih =>
    match rest with
    | [] =>
      rw [joinSlash, splitSlash,
        splitSlashAux_no_slash _ [] (hns x (List.mem_cons_self _ _))]
      simp [mk_data]
    | y :: rest' =>
      rw [joinSlash, splitSlash]
      have hx := hns x (List.mem_cons_self _ _)
      have hdata : (x ++ "/" ++ joinSlash (y :: rest')).data
          = x.data ++ '/' :: (joinSlash (y :: rest')).data := by
        simp [String.data_append]
      rw [hdata, splitSlashAux_break x.data _ [] hx]
      have := ih (by simp) (fun z hz => hns z (List.mem_cons_of_mem _ hz))
      rw [splitSlash] at this
      rw [this]
      simp [mk_data]

theorem splitSlashAux_segments_no_slash (l : List Char) :
    ∀ acc, '/' ∉ acc →
      ∀ seg ∈ splitSlashAux l acc, '/' ∉ seg.data := by
  induction l with
  | nil =>
    intro acc hacc seg hseg
    rw [splitSlashAux] at hseg
    simp only [List.mem_singleton] at hseg
    subst hseg
    intro h
    exact hacc (by simpa using h)
  | cons c rest ih =>
    intro acc hacc seg hseg
    by_cases hc : c = '/'
    · rw [splitSlashAux, if_pos hc] at hseg
      rcases List.mem_cons.mp hseg with h | h
      · subst h
        intro h
        exact hacc (by simpa using h)
      · exact ih [] (by simp) seg h
    · rw [splitSlashAux, if_neg hc] at hseg
      refine ih (c :: acc) ?_ seg hseg
      intro h
      rcases List.mem_cons.mp h with h | h
      · exact hc h.symm
      · exact hacc h

theorem splitSlash_segments_no_slash (s : String) :
    ∀ seg ∈ splitSlash s, '/' ∉ seg.data :=
  splitSlashAux_segments_no_slash s.data [] (by simp)

theorem splitSlashAux_ne_nil :
    ∀ (l : List Char) (acc), splitSlashAux l acc ≠ [] := by
  intro l
  induction l with
  | nil => intro acc; rw [splitSlashAux]; simp
  | cons c rest ih =>
    intro acc
    rw [splitSlashAux]
    by_cases hc : c = '/'
    · rw [if_pos hc]; simp
    · rw [if_neg hc]; exact ih _

theorem splitSlash_ne_nil (s : String) : splitSlash s ≠ [] :=
  splitSlashAux_ne_nil s.data []

/-! ## Ignore patterns and `shouldIgnoreFile` (`CodeEditor.tsx`) -/

/-- Transcribed from `IGNORE_PATTERNS` in `CodeEditor.tsx`, in order. -/
def IGNORE_PATTERNS : List String :=
  ["node_modules", "bower_components", "vendor",
   "dist", "build", "out", "target", ".next", ".nuxt", ".output",
   "*.log", "logs", "npm-debug.log*", "yarn-debug.log*", "yarn-error.log*",
   "pnpm-debug.log*", "lerna-debug.log*",
   ".DS_Store", "Thumbs.db", "desktop.ini",
   ".vscode", ".idea", "*.swp", "*.swo", "*~",
   ".cache", ".tmp", "temp", "tmp",
   "package-lock.json", "yarn.lock", "pnpm-lock.yaml", "bun.lockb",
   "*.zip", "*.tar.gz", "*.rar", "*.7z", "*.exe", "*.dll", "*.so",
   "*.dylib", "*.bin", "*.dat", "*.db", "*.sqlite", "*.sqlite3",
   "*.jpg", "*.jpeg", "*.png", "*.gif", "*.bmp", "*.svg", "*.ico",
   "*.mp3", "*.mp4", "*.avi", "*.mov", "*.wmv", "*.flv", "*.webm",
   "*.pdf", "*.doc", "*.docx", "*.xls", "*.xlsx", "*.ppt", "*.pptx",
   "*.csv", "*.json", "*.xml", "*.yaml", "*.yml", "*.toml", "*.ini",
   "*.cfg", "*.conf",
   ".git", ".gitignore", ".gitattributes",
   ".env", ".env.local", ".env.development", ".env.production", ".env.test"]

/-- Maximum file size to include (5 MB), `MAX_FILE_SIZE`. -/
def MAX_FILE_SIZE : Nat := 5 * 1024 * 1024

/-- Maximum total project size (100 MB), `MAX_PROJECT_SIZE`. -/
def MAX_PROJECT_SIZE : Nat := 100 * 1024 * 1024

/-- Embeds `shouldIgnoreFile`: the size check comes first; then every
deny-list pattern is tried — a pattern containing `*` via the derived regex
against the lower-cased name or path, any other pattern via substring
containment on the path or exact equality on the name. -/
def shouldIgnoreFile (filePath fileName : String) (fileSize : Nat) : Bool :=
  if fileSize > MAX_FILE_SIZE then true
  else
    let path := jsToLower filePath
    let name := jsToLower fileName
    IGNORE_PATTERNS.any (fun pattern =>
      if pattern.data.contains '*' then
        let ts := tokensOf (replaceStar pattern.data)
        regexTest ts name.data || regexTest ts path.data
      else
        strIncludes path (jsToLower pattern) || name == jsToLower pattern)

/-! ## Bulk ingestion input -/

/-- One candidate of a directory upload, as handed over by the host's
file-selection API: `webkitRelativePath`, `name`, `size`, the MIME `type`,
`lastModified`, and the text that `file.text()` would deliver. -/
structure UploadFile where
  webkitRelativePath : String
  name : String
  size : Nat
  type : String
  lastModified : Nat
  text : String
deriving DecidableEq, Repr

/-- Models `file.webkitRelativePath || file.name` (empty string is falsy). -/
def jsPath (f : UploadFile) : String :=
  if f.webkitRelativePath ≠ "" then f.webkitRelativePath else f.name

/-- Has some path segment exactly equal to `node_modules`. -/
def hasNMSeg (p : String) : Bool :=
  (splitSlash p).any (fun part => part == "node_modules")

/-- Has some path segment that begins with a dot. -/
def hasDotSeg (p : String) : Bool :=
  (splitSlash p).any (fun part => strBeginsWith part ".")

/-! ## `ProjectUploader.processFiles` -/

/-- Text-likeness test of `ProjectUploader.processFiles` (this list is
shorter than the editor's). -/
def puIsTextLike (f : UploadFile) : Bool :=
  strBeginsWith f.type "text/" || strFinishesWith f.name ".js" || strFinishesWith f.name ".ts"
    || strFinishesWith f.name ".tsx" || strFinishesWith f.name ".jsx"
    || strFinishesWith f.name ".json" || strFinishesWith f.name ".md"
    || strFinishesWith f.name ".txt" || strFinishesWith f.name ".css"
    || strFinishesWith f.name ".html"

/-- One processed entry of `ProjectUploader` (the `error` branch of the
source catches read failures; reads are total here). -/
structure UploadedFile where
  file : UploadFile
  path : String
  content : Option String
deriving DecidableEq, Repr

/-- Embeds `ProjectUploader.processFiles`: a candidate whose path has a
`node_modules` segment or a segment starting with `.` is skipped before
anything else; otherwise text-like content is read and the entry kept. -/
def processFiles : List UploadFile → List UploadedFile
  | [] => []
  | f :: rest =>
    let path := jsPath f
    if (splitSlash path).any
        (fun part => part == "node_modules" || strBeginsWith part ".") then
      processFiles rest
    else
      { file := f, path := path,
        content := if puIsTextLike f then some f.text else none }
        :: processFiles rest

/-! ## `CodeEditor.handleDirectoryUpload` as an arena state machine

The source keeps a `Map` from path to node object and pushes child objects
into `children` arrays in place.  Object identity matters (the map entry for
a path can later be overwritten while the old object stays linked in the
tree), so nodes live in an arena (`nodes`, index = identity), `fileMap` maps
paths to indices, children are lists of indices. -/

structure UNode where
  id : String
  name : String
  kind : FSKind
  path : String
  size : Option Nat
  lastModified : Nat
  content : Option String
  children : Option (List Nat)
deriving DecidableEq, Repr

structure UploadState where
  nodes : List UNode
  fileMap : List (String × Nat)
  projectFiles : List Nat
  totalSize : Nat
  ignoredFiles : Nat
  processedFiles : Nat
  nodeModulesIgnored : Nat
deriving DecidableEq, Repr

/-- JS `Map.set`: replace an existing key in place, else append. -/
def mapSet (m : List (String × Nat)) (k : String) (v : Nat) :
    List (String × Nat) :=
  match m with
  | [] => [(k, v)]
  | (k', v') :: rest =>
    if k' = k then (k, v) :: rest else (k', v') :: mapSet rest k v

/-- Text-likeness test of `handleDirectoryUpload` (the long extension list
of `CodeEditor.tsx`). -/
def ceIsTextLike (f : UploadFile) : Bool :=
  strBeginsWith f.type "text/" || strFinishesWith f.name ".js" || strFinishesWith f.name ".ts"
    || strFinishesWith f.name ".tsx" || strFinishesWith f.name ".jsx"
    || strFinishesWith f.name ".json" || strFinishesWith f.name ".md"
    || strFinishesWith f.name ".txt" || strFinishesWith f.name ".css"
    || strFinishesWith f.name ".html" || strFinishesWith f.name ".py"
    || strFinishesWith f.name ".java" || strFinishesWith f.name ".cpp"
    || strFinishesWith f.name ".c" || strFinishesWith f.name ".go"
    || strFinishesWith f.name ".rs" || strFinishesWith f.name ".php"
    || strFinishesWith f.name ".rb" || strFinishesWith f.name ".swift"
    || strFinishesWith f.name ".kt"

/-- The `parent && parent.children` guarded push of a child index. -/
def appendChild (st : UploadState) (pIdx cIdx : Nat) : UploadState :=
  match st.nodes.get? pIdx with
  | some pnode =>
    match pnode.children with
    | some cs =>
      { st with nodes :=
          st.nodes.set pIdx { pnode with children := some (cs ++ [cIdx]) } }
    | none => st
  | none => st

/-- One iteration of the folder-creation loop
(`for (let i = 0; i < pathParts.length - 1; i++)`). -/
def folderStep (now : Nat) (pathParts : List String) (st : UploadState)
    (i : Nat) : UploadState :=
  let folderName := pathParts.getD i ""
  let currentPath := joinSlash (pathParts.take (i + 1))
  if folderName = "node_modules" then st
  else if (List.lookup currentPath st.fileMap).isSome then st
  else
    let idx := st.nodes.length
    let folder : UNode :=
      { id := currentPath, name := folderName, kind := .folder,
        path := currentPath, size := none, lastModified := now,
        content := none, children := some [] }
    let st' := { st with
      nodes := st.nodes ++ [folder],
      fileMap := mapSet st.fileMap currentPath idx }
    if i = 0 then { st' with projectFiles := st'.projectFiles ++ [idx] }
    else
      let parentPath := joinSlash (pathParts.take i)
      match List.lookup parentPath st'.fileMap with
      | some pIdx => appendChild st' pIdx idx
      | none => st'

/-- Embeds the per-candidate body of `handleDirectoryUpload`. -/
def uploadStep (now : Nat) (st : UploadState) (f : UploadFile) : UploadState :=
  let path := jsPath f
  let pathParts := splitSlash path
  if pathParts.any (fun part => part == "node_modules") then
    { st with
      nodeModulesIgnored := st.nodeModulesIgnored + 1,
      ignoredFiles := st.ignoredFiles + 1 }
  else if shouldIgnoreFile path f.name f.size then
    { st with ignoredFiles := st.ignoredFiles + 1 }
  else
    let st1 :=
      (List.range (pathParts.length - 1)).foldl (folderStep now pathParts) st
    let fileName := pathParts.getLastD ""
    let content : Option String := if ceIsTextLike f then some f.text else none
    let st2 := { st1 with totalSize := st1.totalSize +
        (match content with | some c => c.length | none => 0) }
    let idx := st2.nodes.length
    let fileItem : UNode :=
      { id := path, name := fileName, kind := .file, path := path,
        size := some f.size, lastModified := f.lastModified,
        content := content, children := none }
    let st3 := { st2 with
      nodes := st2.nodes ++ [fileItem],
      fileMap := mapSet st2.fileMap path idx,
      processedFiles := st2.processedFiles + 1 }
    if pathParts.length = 1 then
      { st3 with projectFiles := st3.projectFiles ++ [idx] }
    else
      let parentPath := joinSlash pathParts.dropLast
      match List.lookup parentPath st3.fileMap with
      | some pIdx => appendChild st3 pIdx idx
      | none => st3

def initUploadState : UploadState :=
  { nodes := [], fileMap := [], projectFiles := [], totalSize := 0,
    ignoredFiles := 0, processedFiles := 0, nodeModulesIgnored := 0 }

/-- Embeds the loop of `handleDirectoryUpload` over the whole batch. -/
def runUpload (now : Nat) (files : List UploadFile) : UploadState :=
  files.foldl (uploadStep now) initUploadState

/-- Materializes the arena forest into `FileSystemItem` values; `fuel`
bounds the depth (children indices strictly grow, so `nodes.length` is
always enough fuel). -/
def matForest (nodes : List UNode) : Nat → List Nat → List FileSystemItem
  | 0, _ => []
  | fuel + 1, idxs =>
    idxs.filterMap (fun i =>
      (nodes.get? i).map (fun nd =>
        FileSystemItem.mk nd.id nd.name nd.kind nd.path nd.size
          nd.lastModified nd.content
          (nd.children.map (matForest nodes fuel))))

/-- The `projectFiles` tree of a finished upload. -/
def uploadTree (st : UploadState) : List FileSystemItem :=
  matForest st.nodes st.nodes.length st.projectFiles

/-- All node paths of a forest, depth-first. -/
def allPaths : List FileSystemItem → List String
  | [] => []
  | .mk _ _ _ p _ _ _ cs :: rest =>
    p :: ((match cs with | some l => allPaths l | none => []) ++ allPaths rest)

/-! ## Claims C7 and C8 — ingestion filtering -/

theorem processFiles_filter (files : List UploadFile) :
    ∀ u ∈ processFiles files,
      (splitSlash u.path).any
        (fun part => part == "node_modules" || strBeginsWith part ".") = false := by
  induction files with
  | nil => intro u hu; rw [processFiles] at hu; exact absurd hu (List.not_mem_nil u)
  | cons f rest ih =>
    intro u hu
    rw [processFiles] at hu
    by_cases hskip : (splitSlash (jsPath f)).any
        (fun part => part == "node_modules" || strBeginsWith part ".") = true
    · rw [if_pos hskip] at hu
      exact ih u hu
    · rw [if_neg hskip] at hu
      rcases List.mem_cons.mp hu with h | h
      · subst h
        exact Bool.eq_false_iff.mpr hskip
      · exact ih u h

theorem any_false_of_or_false {l : List String} {p q : String → Bool}
    (h : l.any (fun x => p x || q x) = false) :
    l.any p = false ∧ l.any q = false := by
  constructor
  · rw [List.any_eq_false] at h ⊢
    intro x hx
    exact Bool.eq_false_iff.mp
      (Bool.or_eq_false_iff.mp (Bool.eq_false_iff.mpr (h x hx))).1
  · rw [List.any_eq_false] at h ⊢
    intro x hx
    exact Bool.eq_false_iff.mp
      (Bool.or_eq_false_iff.mp (Bool.eq_false_iff.mpr (h x hx))).2

/-- Claim C8 (amended): in the `ProjectUploader` flow every candidate whose
path has a segment beginning with `.` (or equal to `node_modules`) is
rejected by the initial path-segment check, before any content read, and
contributes nothing; the `CodeEditor` directory-upload flow has no such
upfront dot check (see the counterexample). -/
theorem processFiles_rejects_dot_segments (files : List UploadFile) :
    ∀ u ∈ processFiles files,
      hasDotSeg u.path = false ∧ hasNMSeg u.path = false := by
  intro u hu
  have h := processFiles_filter files u hu
  have h' := any_false_of_or_false h
  exact ⟨h'.2, h'.1⟩

def dotCand : UploadFile :=
  { webkitRelativePath := ".foo/bar.ts", name := "bar.ts", size := 10,
    type := "", lastModified := 0, text := "x" }

/-- Claim C8 counterexample: in the `CodeEditor` directory-upload flow the
candidate `.foo/bar.ts` — whose path has a segment beginning with `.` — is
not rejected at all: `shouldIgnoreFile` admits it, nothing is counted as
ignored, and both a `.foo` folder and the file appear in the resulting
tree. -/
theorem dot_segment_admitted_cex :
    hasDotSeg ".foo/bar.ts" = true ∧
    shouldIgnoreFile ".foo/bar.ts" "bar.ts" 10 = false ∧
    (runUpload 0 [dotCand]).ignoredFiles = 0 ∧
    allPaths (uploadTree (runUpload 0 [dotCand])) = [".foo", ".foo/bar.ts"] := by
  refine ⟨by decide, by decide, by decide, ?_⟩
  have h1 : (runUpload 0 [dotCand]).nodes =
      [{ id := ".foo", name := ".foo", kind := .folder, path := ".foo",
         size := none, lastModified := 0, content := none,
         children := some [1] },
       { id := ".foo/bar.ts", name := "bar.ts", kind := .file,
         path := ".foo/bar.ts", size := some 10, lastModified := 0,
         content := some "x", children := none }] := by decide
  have h2 : (runUpload 0 [dotCand]).projectFiles = [0] := by decide
  rw [uploadTree, h1, h2]
  simp [matForest, allPaths]

def witC8file : UploadFile :=
  { webkitRelativePath := "src/app.ts", name := "app.ts", size := 10,
    type := "", lastModified := 0, text := "hello" }

def witC8entry : UploadedFile :=
  { file := witC8file, path := "src/app.ts", content := some "hello" }

/-- Witness for the amended C8: the admitted entry of a concrete batch has
no dot segment and no `node_modules` segment. -/
theorem processFiles_rejects_dot_segments_witness :
    hasDotSeg "src/app.ts" = false ∧ hasNMSeg "src/app.ts" = false := by
  exact processFiles_rejects_dot_segments [witC8file] witC8entry (by decide)


/-! ### C7: the arena never holds a `node_modules` path -/

/-- Every node of an arena has a path free of `node_modules` segments. -/
def cleanNodes (l : List UNode) : Prop :=
  ∀ nd ∈ l, hasNMSeg nd.path = false

theorem cleanNodes_append {l : List UNode} (h : cleanNodes l) {nd0 : UNode}
    (h0 : hasNMSeg nd0.path = false) : cleanNodes (l ++ [nd0]) := by
  intro nd hnd
  rcases List.mem_append.mp hnd with h2 | h2
  · exact h nd h2
  · simp only [List.mem_singleton] at h2
    subst h2
    exact h0

theorem hasNMSeg_take_join {path : String} (hclean : hasNMSeg path = false)
    (k : Nat) (hk : 1 ≤ k) :
    hasNMSeg (joinSlash ((splitSlash path).take k)) = false := by
  have hne : (splitSlash path).take k ≠ [] := by
    cases hsp : splitSlash path with
    | nil => exact absurd hsp (splitSlash_ne_nil path)
    | cons a rest =>
      match k, hk with
      | k' + 1, _ => simp
  have hns : ∀ x ∈ (splitSlash path).take k, '/' ∉ x.data :=
    fun x hx => splitSlash_segments_no_slash path x (List.take_subset _ _ hx)
  rw [hasNMSeg, splitSlash_joinSlash _ hne hns]
  rw [hasNMSeg] at hclean
  rw [List.any_eq_false] at hclean ⊢
  exact fun x hx => hclean x (List.take_subset _ _ hx)

theorem appendChild_clean {st : UploadState} (h : cleanNodes st.nodes)
    (pIdx cIdx : Nat) : cleanNodes (appendChild st pIdx cIdx).nodes := by
  unfold appendChild
  split
  · rename_i pnode hg
    split
    · rename_i cs hc
      intro nd hnd
      rcases List.mem_or_eq_of_mem_set hnd with h2 | h2
      · exact h nd h2
      · subst h2
        exact h pnode (List.get?_mem hg)
    · exact h
  · exact h

theorem appendChild_counter (st : UploadState) (pIdx cIdx : Nat) :
    (appendChild st pIdx cIdx).nodeModulesIgnored = st.nodeModulesIgnored := by
  unfold appendChild
  split
  · split
    · rfl
    · rfl
  · rfl

theorem folderStep_clean {path : String} (hclean : hasNMSeg path = false)
    (now i : Nat) {st : UploadState} (h : cleanNodes st.nodes) :
    cleanNodes (folderStep now (splitSlash path) st i).nodes := by
  have hnew := hasNMSeg_take_join hclean (i + 1) (Nat.le_add_left 1 i)
  simp only [folderStep]
  split
  · exact h
  split
  · exact h
  split
  · exact cleanNodes_append h hnew
  split
  · exact appendChild_clean (cleanNodes_append h hnew) _ _
  · exact cleanNodes_append h hnew

theorem folderStep_counter (now : Nat) (pp : List String) (st : UploadState)
    (i : Nat) :
    (folderStep now pp st i).nodeModulesIgnored = st.nodeModulesIgnored := by
  simp only [folderStep]
  split
  · rfl
  split
  · rfl
  split
  · rfl
  split
  · exact appendChild_counter _ _ _
  · rfl

theorem foldersLoop_clean {path : String} (hclean : hasNMSeg path = false)
    (now : Nat) :
    ∀ (l : List Nat) (st : UploadState), cleanNodes st.nodes →
      cleanNodes ((l.foldl (folderStep now (splitSlash path)) st)).nodes := by
  intro l
  induction l with
  | nil => intro st h; exact h
  | cons i rest ih =>
    intro st h
    exact ih _ (folderStep_clean hclean now i h)

theorem foldersLoop_counter (now : Nat) (pp : List String) :
    ∀ (l : List Nat) (st : UploadState),
      ((l.foldl (folderStep now pp) st)).nodeModulesIgnored
        = st.nodeModulesIgnored := by
  intro l
  induction l with
  | nil => intro st; rfl
  | cons i rest ih =>
    intro st
    rw [List.foldl_cons, ih, folderStep_counter]

theorem uploadStep_clean (now : Nat) (f : UploadFile) {st : UploadState}
    (h : cleanNodes st.nodes) : cleanNodes (uploadStep now st f).nodes := by
  simp only [uploadStep]
  split
  · exact h
  split
  · exact h
  rename_i h1 h2
  have hclean : hasNMSeg (jsPath f) = false := by
    rw [hasNMSeg]
    exact Bool.eq_false_iff.mpr h1
  have hfold := foldersLoop_clean hclean now
    (List.range ((splitSlash (jsPath f)).length - 1)) st h
  split
  · exact cleanNodes_append hfold hclean
  split
  · exact appendChild_clean (cleanNodes_append hfold hclean) _ _
  · exact cleanNodes_append hfold hclean

theorem uploadStep_counter (now : Nat) (st : UploadState) (f : UploadFile) :
    (uploadStep now st f).nodeModulesIgnored
      = st.nodeModulesIgnored + (if hasNMSeg (jsPath f) then 1 else 0) := by
  simp only [uploadStep]
  split
  · rename_i h1
    rw [if_pos (show hasNMSeg (jsPath f) = true from h1)]
  split
  · rename_i h1 h2
    rw [if_neg (show ¬ hasNMSeg (jsPath f) = true from h1)]
    rfl
  rename_i h1 h2
  rw [if_neg (show ¬ hasNMSeg (jsPath f) = true from h1)]
  rw [Nat.add_zero]
  split
  · exact foldersLoop_counter now _ _ _
  split
  · rw [appendChild_counter]
    exact foldersLoop_counter now _ _ _
  · exact foldersLoop_counter now _ _ _

theorem runUpload_clean (now : Nat) (files : List UploadFile) :
    cleanNodes (runUpload now files).nodes := by
  rw [runUpload]
  have : ∀ (fs : List UploadFile) (st : UploadState), cleanNodes st.nodes →
      cleanNodes ((fs.foldl (uploadStep now) st)).nodes := by
    intro fs
    induction fs with
    | nil => intro st h; exact h
    | cons f rest ih => intro st h; exact ih _ (uploadStep_clean now f h)
  exact this files initUploadState (fun nd hnd => absurd hnd (List.not_mem_nil nd))

theorem allPaths_matForest_sub (nodes : List UNode) :
    ∀ fuel idxs, ∀ p ∈ allPaths (matForest nodes fuel idxs),
      ∃ nd ∈ nodes, nd.path = p := by
  intro fuel
  induction fuel with
  | zero =>
    intro idxs p hp
    rw [matForest] at hp
    rw [allPaths] at hp
    exact absurd hp (List.not_mem_nil p)
  | succ fuel ih =>
    intro idxs
    induction idxs with
    | nil =>
      intro p hp
      rw [matForest] at hp
      simp only [List.filterMap_nil] at hp
      rw [allPaths] at hp
      exact absurd hp (List.not_mem_nil p)
    | cons i rest ihr =>
      intro p hp
      rw [matForest, List.filterMap_cons] at hp
      cases hg : nodes.get? i with
      | none =>
        rw [hg, Option.map_none'] at hp
        rw [matForest] at ihr
        exact ihr p hp
      | some nd =>
        rw [hg, Option.map_some'] at hp
        cases hc : nd.children with
        | none =>
          rw [hc, Option.map_none'] at hp
          rw [allPaths] at hp
          rcases List.mem_cons.mp hp with h | h
          · exact ⟨nd, List.get?_mem hg, h.symm⟩
          · simp only [List.nil_append] at h
            rw [matForest] at ihr
            exact ihr p h
        | some cs =>
          rw [hc, Option.map_some'] at hp
          rw [allPaths] at hp
          rcases List.mem_cons.mp hp with h | h
          · exact ⟨nd, List.get?_mem hg, h.symm⟩
          · rcases List.mem_append.mp h with h | h
            · exact ih cs p h
            · rw [matForest] at ihr
              exact ihr p h


/-- Claim C7: no candidate with a `node_modules` path segment is admitted —
the tree built by `handleDirectoryUpload` contains no node (file or
synthesized folder) whose path has such a segment, every such candidate is
counted in the dedicated `nodeModulesIgnored` sub-count, and the
`ProjectUploader` flow likewise admits no such candidate. -/
theorem ingestion_excludes_node_modules (now : Nat) (files : List UploadFile) :
    (∀ p ∈ allPaths (uploadTree (runUpload now files)), hasNMSeg p = false) ∧
    (runUpload now files).nodeModulesIgnored
      = files.countP (fun f => hasNMSeg (jsPath f)) ∧
    (∀ u ∈ processFiles files, hasNMSeg u.path = false) := by
  refine ⟨?_, ?_, ?_⟩
  · intro p hp
    obtain ⟨nd, hnd, hpath⟩ := allPaths_matForest_sub (runUpload now files).nodes
      (runUpload now files).nodes.length (runUpload now files).projectFiles p hp
    exact hpath ▸ runUpload_clean now files nd hnd
  · rw [runUpload]
    have : ∀ (fs : List UploadFile) (st : UploadState),
        (fs.foldl (uploadStep now) st).nodeModulesIgnored
          = st.nodeModulesIgnored + fs.countP (fun f => hasNMSeg (jsPath f)) := by
      intro fs
      induction fs with
      | nil => intro st; simp
      | cons f rest ih =>
        intro st
        rw [List.foldl_cons, ih, uploadStep_counter, List.countP_cons]
        cases h : hasNMSeg (jsPath f) with
        | true => simp only [if_pos rfl]; omega
        | false =>
          simp only [if_neg (Bool.false_ne_true)]
          omega
    rw [this files initUploadState]
    simp [initUploadState]
  · intro u hu
    exact ((any_false_of_or_false (processFiles_filter files u hu)).1)

/-- Witness for C7 at a concrete batch: one admitted file, one
`node_modules` candidate. -/
theorem ingestion_excludes_node_modules_witness :
    (runUpload 0
        [{ webkitRelativePath := "src/app.ts", name := "app.ts", size := 10,
           type := "", lastModified := 0, text := "hello" },
         { webkitRelativePath := "src/node_modules/a.js", name := "a.js",
           size := 10, type := "", lastModified := 0, text := "x" }]).nodeModulesIgnored
      = 1 := by
  rw [(ingestion_excludes_node_modules 0 _).2.1]
  decide

/-! ## JSON serialization (platform `JSON.stringify`)

`safeSetItem` serializes through `compressData` (a `JSON.stringify` whose
output then has every whitespace run replaced by one space and is trimmed),
and `saveCurrentProject` takes `JSON.stringify(currentProject).length` as the
project's `totalSize`.  The model below reproduces `JSON.stringify` for the
concrete shapes the code stores: property order follows the object literals
in the source, properties whose value is `undefined` are omitted, `Date`
values serialize to their ISO-8601 string. -/

def hexDigit (n : Nat) : Char :=
  if n < 10 then Char.ofNat (48 + n) else Char.ofNat (87 + n)

/-- JSON string escaping of one character. -/
def escChar (c : Char) : List Char :=
  if c = '"' then ['\\', '"']
  else if c = '\\' then ['\\', '\\']
  else if c = Char.ofNat 8 then ['\\', 'b']
  else if c = Char.ofNat 9 then ['\\', 't']
  else if c = Char.ofNat 10 then ['\\', 'n']
  else if c = Char.ofNat 12 then ['\\', 'f']
  else if c = Char.ofNat 13 then ['\\', 'r']
  else if c.toNat < 32 then
    ['\\', 'u', '0', '0', hexDigit (c.toNat / 16), hexDigit (c.toNat % 16)]
  else [c]

def jsonString (s : String) : List Char :=
  '"' :: s.data.flatMap escChar ++ ['"']

def digitChar (d : Nat) : Char := Char.ofNat (48 + d)

def natToDecAux : Nat → Nat → List Char
  | 0, _ => []
  | fuel + 1, n =>
    if n < 10 then [digitChar n]
    else natToDecAux fuel (n / 10) ++ [digitChar (n % 10)]

/-- Decimal rendering of a natural number (JSON number serialization). -/
def natToDec (n : Nat) : List Char := natToDecAux (n + 1) n

def pad2 (n : Nat) : List Char :=
  if n < 10 then '0' :: natToDec n else natToDec n

def pad3 (n : Nat) : List Char :=
  if n < 10 then '0' :: '0' :: natToDec n
  else if n < 100 then '0' :: natToDec n
  else natToDec n

def pad4 (n : Nat) : List Char :=
  if n < 10 then '0' :: '0' :: '0' :: natToDec n
  else if n < 100 then '0' :: '0' :: natToDec n
  else if n < 1000 then '0' :: natToDec n
  else natToDec n

/-- `Date.prototype.toISOString` for an epoch-milliseconds value (civil
calendar computation, valid for dates from 1970 on). -/
def isoOfMs (ms : Nat) : List Char :=
  let days := ms / 86400000
  let msOfDay := ms % 86400000
  let hh := msOfDay / 3600000
  let mi := (msOfDay % 3600000) / 60000
  let ss := (msOfDay % 60000) / 1000
  let mmm := ms % 1000
  let z := days + 719468
  let era := z / 146097
  let doe := z % 146097
  let yoe := (doe - doe / 1460 + doe / 36524 - doe / 146096) / 365
  let y := yoe + era * 400
  let doy := doe - (365 * yoe + yoe / 4 - yoe / 100)
  let mp := (5 * doy + 2) / 153
  let d := doy - (153 * mp + 2) / 5 + 1
  let m := if mp < 10 then mp + 3 else mp - 9
  let y' := if m ≤ 2 then y + 1 else y
  pad4 y' ++ '-' :: pad2 m ++ '-' :: pad2 d ++ 'T' :: pad2 hh
    ++ ':' :: pad2 mi ++ ':' :: pad2 ss ++ '.' :: pad3 mmm ++ ['Z']

def lbr : Char := Char.ofNat 123

def rbr : Char := Char.ofNat 125

def kindStr : FSKind → String
  | .file => "file"
  | .folder => "folder"

mutual

/-- Comma-separated `JSON.stringify` renderings of tree nodes. -/
def jsonItems : List FileSystemItem → List Char
  | [] => []
  | [x] => jsonItem x
  | x :: y :: rest => jsonItem x ++ ',' :: jsonItems (y :: rest)

/-- The `JSON.stringify` rendering of one tree node: property order
`id, name, type, path, size, lastModified, content, children` as in the
source's object literals, optional properties omitted when absent. -/
def jsonItem : FileSystemItem → List Char
  | .mk i n k p s lm c cs =>
    lbr :: "\"id\":".data ++ jsonString i
      ++ ",\"name\":".data ++ jsonString n
      ++ ",\"type\":".data ++ jsonString (kindStr k)
      ++ ",\"path\":".data ++ jsonString p
      ++ (match s with
          | some v => ",\"size\":".data ++ natToDec v
          | none => [])
      ++ ",\"lastModified\":".data ++ jsonString (String.mk (isoOfMs lm))
      ++ (match c with
          | some t => ",\"content\":".data ++ jsonString t
          | none => [])
      ++ (match cs with
          | some l => ",\"children\":".data ++ '[' :: jsonItems l ++ [']']
          | none => [])
      ++ [rbr]

end

/-- `JSON.stringify` of a node array. -/
def jsonForest (l : List FileSystemItem) : List Char :=
  '[' :: jsonItems l ++ [']']

/-- A saved project record (`SavedProject` of `CodeEditor.tsx`); `Date`
fields embedded as epoch milliseconds. -/
structure SavedProject where
  id : String
  name : String
  files : List FileSystemItem
  lastOpened : Nat
  createdAt : Nat
  totalSize : Nat

/-- `JSON.stringify` of one saved project: property order
`id, name, files, lastOpened, createdAt, totalSize`. -/
def jsonProject (p : SavedProject) : List Char :=
  lbr :: "\"id\":".data ++ jsonString p.id
    ++ ",\"name\":".data ++ jsonString p.name
    ++ ",\"files\":".data ++ jsonForest p.files
    ++ ",\"lastOpened\":".data ++ jsonString (String.mk (isoOfMs p.lastOpened))
    ++ ",\"createdAt\":".data ++ jsonString (String.mk (isoOfMs p.createdAt))
    ++ ",\"totalSize\":".data ++ natToDec p.totalSize
    ++ [rbr]

def jsonProjectList : List SavedProject → List Char
  | [] => []
  | [x] => jsonProject x
  | x :: y :: rest => jsonProject x ++ ',' :: jsonProjectList (y :: rest)

/-- `JSON.stringify` of the project array stored under the projects key. -/
def jsonProjects (l : List SavedProject) : List Char :=
  '[' :: jsonProjectList l ++ [']']

/-! ## `compressData` -/

/-- The whitespace class of the JS regex `\s` (ASCII part; the inputs here
stay in ASCII). -/
def isJsWs (c : Char) : Bool :=
  c = ' ' || c = Char.ofNat 9 || c = Char.ofNat 10 || c = Char.ofNat 13
    || c = Char.ofNat 12 || c = Char.ofNat 11

/-- Replacement of every maximal whitespace run by a single space (the
`replace` step of `compressData`). -/
def collapseRun : List Char → List Char
  | [] => []
  | c :: rest =>
    if isJsWs c then
      match rest with
      | [] => [' ']
      | d :: _ => if isJsWs d then collapseRun rest else ' ' :: collapseRun rest
    else c :: collapseRun rest

/-- JS `String.prototype.trim`. -/
def trimChars (l : List Char) : List Char :=
  ((l.dropWhile isJsWs).reverse.dropWhile isJsWs).reverse

/-- Embeds `compressData` applied to a project list:
`JSON.stringify(data).replace ws-runs by a space, then trim`. -/
def compressProjects (ps : List SavedProject) : List Char :=
  trimChars (collapseRun (jsonProjects ps))

/-- `new Blob([s]).size`: the UTF-8 byte count. -/
def utf8Len (l : List Char) : Nat :=
  (l.map (fun c => c.utf8Size)).sum

/-! ## The durable store and `safeSetItem`

`localStorage` is modelled as a keyed store of (already parsed) project
lists; a write succeeds exactly when the store's total character count —
keys plus `compressData`-serialized values, as `localStorage` counts them —
stays within a quota `Q`.  A `QuotaExceededError` of the source is the
`none` result of `setItemRaw`.  `SaveResult` records the boolean the
function returns, the final store, the `setItem` calls attempted in order,
and the toasts shown (the too-large toast carrying the reported size). -/

def PROJECTS_KEY : String := "intellicode-saved-projects"

def storeSet (st : List (String × List SavedProject)) (k : String)
    (v : List SavedProject) : List (String × List SavedProject) :=
  match st with
  | [] => [(k, v)]
  | (k', v') :: rest =>
    if k' = k then (k, v) :: rest else (k', v') :: storeSet rest k v

def storeSize (st : List (String × List SavedProject)) : Nat :=
  (st.map (fun kv => kv.1.length + (compressProjects kv.2).length)).sum

/-- One `localStorage.setItem` call: the updated store on success, `none`
for a quota-exceeded failure. -/
def setItemRaw (Q : Nat) (st : List (String × List SavedProject))
    (k : String) (v : List SavedProject) :
    Option (List (String × List SavedProject)) :=
  let st' := storeSet st k v
  if storeSize st' ≤ Q then some st' else none

inductive SaveEvent where
  | tooLarge (sizeBytes : Nat)
  | storageFull
  | spaceFreed
deriving DecidableEq, Repr

structure SaveResult where
  ok : Bool
  store : List (String × List SavedProject)
  writes : List (String × List SavedProject)
  events : List SaveEvent

/-- The eviction sort: ascending by `new Date(p.lastOpened).getTime()`
(stable, as JS `Array.prototype.sort` is). -/
def sortByLastOpened (l : List SavedProject) : List SavedProject :=
  List.insertionSort (fun a b => a.lastOpened ≤ b.lastOpened) l

/-- Embeds `safeSetItem`: compress, reject oversized payloads before any
write; otherwise write, and on a quota failure read the stored project list
back, and only if it holds more than one project sort it by `lastOpened`
ascending, drop the first (oldest) and write the trimmed list back — the
original write is never re-attempted, and the function returns `false` on
every failure path. -/
def safeSetItem (Q : Nat) (store : List (String × List SavedProject))
    (key : String) (value : List SavedProject) : SaveResult :=
  let compressed := compressProjects value
  let size := utf8Len compressed
  if size > MAX_PROJECT_SIZE then
    { ok := false, store := store, writes := [], events := [.tooLarge size] }
  else
    match setItemRaw Q store key value with
    | some st' =>
      { ok := true, store := st', writes := [(key, value)], events := [] }
    | none =>
      match List.lookup PROJECTS_KEY store with
      | some projects =>
        if projects.length > 1 then
          let trimmed := (sortByLastOpened projects).tail
          match setItemRaw Q store PROJECTS_KEY trimmed with
          | some st2 =>
            { ok := false, store := st2,
              writes := [(key, value), (PROJECTS_KEY, trimmed)],
              events := [.storageFull, .spaceFreed] }
          | none =>
            { ok := false, store := store,
              writes := [(key, value), (PROJECTS_KEY, trimmed)],
              events := [.storageFull] }
        else
          { ok := false, store := store, writes := [(key, value)],
            events := [.storageFull] }
      | none =>
        { ok := false, store := store, writes := [(key, value)],
          events := [.storageFull] }

/-! ## Claim C2 — the 100 MiB size ceiling -/

/-- Claim C2: whenever the compressed JSON serialization of the value
exceeds `MAX_PROJECT_SIZE`, `safeSetItem` attempts no write at all, leaves
the store exactly as it was, returns failure, and surfaces a rejection
carrying the offending size. -/
theorem safeSetItem_size_ceiling (Q : Nat)
    (store : List (String × List SavedProject)) (key : String)
    (value : List SavedProject)
    (h : utf8Len (compressProjects value) > MAX_PROJECT_SIZE) :
    safeSetItem Q store key value
      = { ok := false, store := store, writes := [],
          events := [.tooLarge (utf8Len (compressProjects value))] } := by
  simp only [safeSetItem]
  rw [if_pos h]

/-! ### Witness material for C2: a value whose serialization tops 100 MiB -/

def noWs (l : List Char) : Prop := ∀ c ∈ l, isJsWs c = false

instance noWsDecidable (l : List Char) : Decidable (noWs l) :=
  List.decidableBAll _ l

theorem noWs_append {a b : List Char} (ha : noWs a) (hb : noWs b) :
    noWs (a ++ b) := by
  intro c hc
  rcases List.mem_append.mp hc with h | h
  · exact ha c h
  · exact hb c h

theorem noWs_cons {c : Char} {l : List Char} (hc : isJsWs c = false)
    (hl : noWs l) : noWs (c :: l) := by
  intro d hd
  rcases List.mem_cons.mp hd with h | h
  · exact h ▸ hc
  · exact hl d h

theorem collapseRun_id : ∀ l, noWs l → collapseRun l = l := by
  intro l
  induction l with
  | nil => intro _; rw [collapseRun]
  | cons c rest ih =>
    intro h
    have hc : isJsWs c = false := h c (List.mem_cons_self _ _)
    have hrest : noWs rest := fun d hd => h d (List.mem_cons_of_mem _ hd)
    cases rest with
    | nil =>
      rw [collapseRun, if_neg (by simp [hc])]
      rw [collapseRun]
    | cons d tl =>
      rw [collapseRun, if_neg (by simp [hc]), ih hrest]

theorem dropWhile_id {l : List Char} (h : noWs l) :
    l.dropWhile isJsWs = l := by
  cases l with
  | nil => rfl
  | cons c rest =>
    rw [List.dropWhile_cons,
      if_neg (by simp [h c (List.mem_cons_self _ _)])]

theorem trimChars_id {l : List Char} (h : noWs l) : trimChars l = l := by
  have hrev : noWs l.reverse := fun c hc => h c (List.mem_reverse.mp hc)
  rw [trimChars, dropWhile_id h, dropWhile_id hrev, List.reverse_reverse]

theorem compressProjects_id (ps : List SavedProject)
    (h : noWs (jsonProjects ps)) :
    compressProjects ps = jsonProjects ps := by
  rw [compressProjects, collapseRun_id _ h, trimChars_id h]

theorem utf8Len_append (a b : List Char) :
    utf8Len (a ++ b) = utf8Len a + utf8Len b := by
  rw [utf8Len, utf8Len, utf8Len, List.map_append, List.sum_append]

theorem utf8Len_cons (c : Char) (l : List Char) :
    utf8Len (c :: l) = c.utf8Size + utf8Len l := by
  rw [utf8Len, utf8Len, List.map_cons, List.sum_cons]

theorem flatMap_escChar_replicate (n : Nat) :
    (List.replicate n 'a').flatMap escChar = List.replicate n 'a' := by
  induction n with
  | zero => rfl
  | succ n ih =>
    rw [List.replicate_succ, List.flatMap_cons, ih,
      show escChar 'a' = ['a'] from by decide]
    rfl

theorem utf8Len_replicate_a (n : Nat) :
    utf8Len (List.replicate n 'a') = n := by
  induction n with
  | zero => rfl
  | succ n ih =>
    rw [List.replicate_succ, utf8Len_cons, ih,
      show ('a').utf8Size = 1 from rfl]
    omega

theorem noWs_replicate_a (n : Nat) : noWs (List.replicate n 'a') := by
  intro c hc
  rw [List.eq_of_mem_replicate hc]
  decide

def bigName : String := String.mk (List.replicate (MAX_PROJECT_SIZE + 1) 'a')

def bigProject : SavedProject :=
  { id := "p", name := bigName, files := [], lastOpened := 0, createdAt := 0,
    totalSize := 0 }

theorem jsonString_bigName :
    jsonString bigName
      = '"' :: List.replicate (MAX_PROJECT_SIZE + 1) 'a' ++ ['"'] := by
  rw [jsonString,
    show bigName.data = List.replicate (MAX_PROJECT_SIZE + 1) 'a' from rfl,
    flatMap_escChar_replicate]

theorem noWs_jsonProject_big : noWs (jsonProject bigProject) := by
  rw [jsonProject]
  rw [show bigProject.name = bigName from rfl, jsonString_bigName]
  refine noWs_append ?_ (by decide)
  refine noWs_append ?_ (by decide)
  refine noWs_append ?_ (by decide)
  refine noWs_append ?_ (by decide)
  refine noWs_append ?_ (by decide)
  refine noWs_append ?_ (by decide)
  refine noWs_append ?_ (by decide)
  refine noWs_append ?_
    (show noWs (jsonForest bigProject.files) from by
      rw [show bigProject.files = ([] : List FileSystemItem) from rfl,
        jsonForest, jsonItems]
      decide)
  refine noWs_append ?_ (by decide)
  refine noWs_append ?_
    (noWs_append (noWs_cons (by decide) (noWs_replicate_a _)) (by decide))
  refine noWs_append ?_ (by decide)
  refine noWs_append ?_ (by decide)
  exact noWs_cons (by decide) (by decide)

theorem noWs_jsonProjects_big : noWs (jsonProjects [bigProject]) := by
  rw [jsonProjects, jsonProjectList]
  exact noWs_cons (by decide) (noWs_append noWs_jsonProject_big (by decide))

theorem big_serialization_exceeds :
    utf8Len (compressProjects [bigProject]) > MAX_PROJECT_SIZE := by
  rw [compressProjects_id _ noWs_jsonProjects_big]
  rw [jsonProjects, jsonProjectList, jsonProject]
  rw [show bigProject.name = bigName from rfl, jsonString_bigName]
  simp only [utf8Len_append, utf8Len_cons, utf8Len_replicate_a]
  omega

/-- Witness for C2: saving a project list whose compressed serialization
exceeds 100 MiB changes nothing and reports the size. -/
theorem safeSetItem_size_ceiling_witness :
    safeSetItem 1000 [] PROJECTS_KEY [bigProject]
      = { ok := false, store := [], writes := [],
          events := [.tooLarge (utf8Len (compressProjects [bigProject]))] } :=
  safeSetItem_size_ceiling 1000 [] PROJECTS_KEY [bigProject]
    big_serialization_exceeds

/-! ## Claim C1 — quota failure, eviction and (no) retry -/

instance lastOpenedLeTotal :
    IsTotal SavedProject (fun a b => a.lastOpened ≤ b.lastOpened) :=
  ⟨fun x y => Nat.le_total x.lastOpened y.lastOpened⟩

instance lastOpenedLeTrans :
    IsTrans SavedProject (fun a b => a.lastOpened ≤ b.lastOpened) :=
  ⟨fun _ _ _ hab hbc => Nat.le_trans hab hbc⟩

/-- Claim C1 (amended): when the write of the project list hits a quota
failure and the store holds MORE than one project under the projects key,
exactly one stored project is evicted — the one with the earliest
`lastOpened`, and never anything from the list being saved — by writing the
sorted-and-shifted previous list back; that cleanup write is the only
further `setItem` call (the original write is NOT retried, successful
cleanup or not), it may itself fail silently, and the call reports failure
either way. -/
theorem safeSetItem_quota_eviction_policy (Q : Nat)
    (store : List (String × List SavedProject))
    (value projects : List SavedProject)
    (hsize : ¬ utf8Len (compressProjects value) > MAX_PROJECT_SIZE)
    (hfail : setItemRaw Q store PROJECTS_KEY value = none)
    (hlook : List.lookup PROJECTS_KEY store = some projects)
    (hlen : projects.length > 1) :
    ∃ ev rest, sortByLastOpened projects = ev :: rest ∧
      ev ∈ projects ∧
      (∀ p ∈ projects, ev.lastOpened ≤ p.lastOpened) ∧
      (ev :: rest).Perm projects ∧
      safeSetItem Q store PROJECTS_KEY value
        = (match setItemRaw Q store PROJECTS_KEY rest with
           | some st2 =>
             { ok := false, store := st2,
               writes := [(PROJECTS_KEY, value), (PROJECTS_KEY, rest)],
               events := [.storageFull, .spaceFreed] }
           | none =>
             { ok := false, store := store,
               writes := [(PROJECTS_KEY, value), (PROJECTS_KEY, rest)],
               events := [.storageFull] }) := by
  have hperm : (sortByLastOpened projects).Perm projects :=
    List.perm_insertionSort _ projects
  have hsorted : List.Sorted (fun a b => a.lastOpened ≤ b.lastOpened)
      (sortByLastOpened projects) :=
    List.sorted_insertionSort _ projects
  have hne : sortByLastOpened projects ≠ [] := by
    intro h
    rw [h] at hperm
    have := hperm.length_eq
    simp at this
    omega
  obtain ⟨ev, rest, hER⟩ : ∃ ev rest, sortByLastOpened projects = ev :: rest := by
    cases hS : sortByLastOpened projects with
    | nil => exact absurd hS hne
    | cons a l => exact ⟨a, l, rfl⟩
  refine ⟨ev, rest, hER, ?_, ?_, ?_, ?_⟩
  · exact (hperm.mem_iff).mp (hER ▸ List.mem_cons_self _ _)
  · intro p hp
    have hpmem : p ∈ ev :: rest := (hER ▸ hperm).mem_iff.mpr hp
    rcases List.mem_cons.mp hpmem with h | h
    · exact h ▸ Nat.le_refl _
    · rw [hER] at hsorted
      exact List.rel_of_sorted_cons hsorted p h
  · exact hER ▸ hperm
  · simp only [safeSetItem]
    rw [if_neg hsize]
    simp only [hfail, hlook]
    rw [if_pos hlen, hER]
    rfl

/-! ### Concrete C1 scenario -/

def pA : SavedProject :=
  { id := "a", name := "A", files := [], lastOpened := 0, createdAt := 0,
    totalSize := 0 }

def pB : SavedProject :=
  { id := "b", name := "B", files := [], lastOpened := 1000, createdAt := 0,
    totalSize := 0 }

def pC : SavedProject :=
  { id := "c", name := "C", files := [], lastOpened := 2000, createdAt := 0,
    totalSize := 0 }

def cexStore : List (String × List SavedProject) := [(PROJECTS_KEY, [pA, pB])]

def cexValue : List SavedProject := [pC, pA, pB]

def cexQ : Nat := 300

theorem jsonForest_nil : jsonForest ([] : List FileSystemItem) = ['[', ']'] := by
  rw [jsonForest, jsonItems]
  rfl

set_option maxRecDepth 8192 in
/-- Claim C1 counterexample: saving the list `[C, A, B]` over a stored
`[A, B]` under quota 300 fails; the oldest stored project `A` is evicted and
the trimmed previous list `[B]` is written back, but — contrary to the
claim — the original write is never retried: the only two `setItem` calls
are the failed original and the cleanup write of `[B]`, the call returns
failure, and the store ends up holding `[B]` without the list being saved —
no "retried exactly once" write of the value ever happens. -/
theorem safeSetItem_no_retry_cex :
    (safeSetItem cexQ cexStore PROJECTS_KEY cexValue).ok = false ∧
    (safeSetItem cexQ cexStore PROJECTS_KEY cexValue).writes.map
        (fun w => (w.1, w.2.map SavedProject.id))
      = [(PROJECTS_KEY, ["c", "a", "b"]), (PROJECTS_KEY, ["b"])] ∧
    (safeSetItem cexQ cexStore PROJECTS_KEY cexValue).store.map
        (fun kv => (kv.1, kv.2.map SavedProject.id))
      = [(PROJECTS_KEY, ["b"])] ∧
    (safeSetItem cexQ cexStore PROJECTS_KEY cexValue).events
      = [.storageFull, .spaceFreed] := by
  refine ⟨?_, ?_, ?_, ?_⟩ <;>
    simp only [safeSetItem, setItemRaw, compressProjects, jsonProjects,
      jsonProjectList, jsonProject, jsonForest, jsonItems, jsonForest_nil,
      cexStore, cexValue, cexQ, pA, pB, pC, storeSet, storeSize,
      sortByLastOpened, List.map_cons, List.map_nil, List.sum_cons,
      List.sum_nil, List.lookup, List.insertionSort, List.orderedInsert,
      if_true, if_false] <;>
    decide

set_option maxRecDepth 8192 in
/-- Witness for the amended C1 at the concrete scenario. -/
theorem safeSetItem_quota_eviction_policy_witness :
    ∃ ev rest, sortByLastOpened [pA, pB] = ev :: rest ∧
      ev ∈ [pA, pB] ∧
      (∀ p ∈ [pA, pB], ev.lastOpened ≤ p.lastOpened) ∧
      (ev :: rest).Perm [pA, pB] ∧
      safeSetItem cexQ cexStore PROJECTS_KEY cexValue
        = (match setItemRaw cexQ cexStore PROJECTS_KEY rest with
           | some st2 =>
             { ok := false, store := st2,
               writes := [(PROJECTS_KEY, cexValue), (PROJECTS_KEY, rest)],
               events := [.storageFull, .spaceFreed] }
           | none =>
             { ok := false, store := cexStore,
               writes := [(PROJECTS_KEY, cexValue), (PROJECTS_KEY, rest)],
               events := [.storageFull] }) := by
  refine safeSetItem_quota_eviction_policy cexQ cexStore cexValue [pA, pB]
    ?_ ?_ ?_ ?_
  · simp only [compressProjects, jsonProjects, jsonProjectList, jsonProject,
      jsonForest, jsonItems, cexValue, pA, pB, pC]
    decide
  · simp only [setItemRaw, compressProjects, jsonProjects, jsonProjectList,
      jsonProject, jsonForest, jsonItems, cexStore, cexValue, cexQ, pA, pB,
      pC, storeSet, storeSize, List.map_cons, List.map_nil, List.sum_cons,
      List.sum_nil, if_true, if_false]
    rw [if_neg (by decide)]
  · rfl
  · decide

/-! ## Claim C9 — what `totalSize` actually accounts -/

/-- Comparison definition, following the amended claim's words: the sum of
`content.length` over the candidates the directory upload admits and reads
(a `node_modules` or deny-list rejected candidate contributes nothing, an
admitted candidate without a text-like extension contributes zero). -/
def admittedContentSum (files : List UploadFile) : Nat :=
  (files.map (fun f =>
    if (splitSlash (jsPath f)).any (fun part => part == "node_modules") then 0
    else if shouldIgnoreFile (jsPath f) f.name f.size then 0
    else if ceIsTextLike f then f.text.length else 0)).sum

theorem appendChild_totalSize (st : UploadState) (pIdx cIdx : Nat) :
    (appendChild st pIdx cIdx).totalSize = st.totalSize := by
  unfold appendChild
  split
  · split
    · rfl
    · rfl
  · rfl

theorem folderStep_totalSize (now : Nat) (pp : List String) (st : UploadState)
    (i : Nat) :
    (folderStep now pp st i).totalSize = st.totalSize := by
  simp only [folderStep]
  split
  · rfl
  split
  · rfl
  split
  · rfl
  split
  · exact appendChild_totalSize _ _ _
  · rfl

theorem foldersLoop_totalSize (now : Nat) (pp : List String) :
    ∀ (l : List Nat) (st : UploadState),
      ((l.foldl (folderStep now pp) st)).totalSize = st.totalSize := by
  intro l
  induction l with
  | nil => intro st; rfl
  | cons i rest ih =>
    intro st
    rw [List.foldl_cons, ih, folderStep_totalSize]

theorem uploadStep_totalSize (now : Nat) (st : UploadState) (f : UploadFile) :
    (uploadStep now st f).totalSize
      = st.totalSize +
        (if (splitSlash (jsPath f)).any
            (fun part => part == "node_modules") then 0
         else if shouldIgnoreFile (jsPath f) f.name f.size then 0
         else if ceIsTextLike f then f.text.length else 0) := by
  simp only [uploadStep]
  split
  · rfl
  split
  · rfl
  split
  · rw [foldersLoop_totalSize]
    cases hct : ceIsTextLike f <;> rfl
  split
  · rw [appendChild_totalSize, foldersLoop_totalSize]
    cases hct : ceIsTextLike f <;> rfl
  · rw [foldersLoop_totalSize]
    cases hct : ceIsTextLike f <;> rfl

theorem runUpload_totalSize (now : Nat) (files : List UploadFile) :
    (runUpload now files).totalSize = admittedContentSum files := by
  rw [runUpload]
  have key : ∀ (fs : List UploadFile) (st : UploadState),
      (fs.foldl (uploadStep now) st).totalSize
        = st.totalSize + admittedContentSum fs := by
    intro fs
    induction fs with
    | nil => intro st; simp [admittedContentSum]
    | cons f rest ih =>
      intro st
      rw [List.foldl_cons, ih, uploadStep_totalSize]
      simp only [admittedContentSum, List.map_cons, List.sum_cons]
      omega
  rw [key files initUploadState]
  simp [initUploadState]

/-! ### The serialized length strictly exceeds the content sum -/

theorem escChar_len_pos (c : Char) : 1 ≤ (escChar c).length := by
  rw [escChar]
  split
  · decide
  split
  · decide
  split
  · decide
  split
  · decide
  split
  · decide
  split
  · decide
  split
  · decide
  split
  · simp
  · simp

theorem flatMap_escChar_len (l : List Char) :
    l.length ≤ (l.flatMap escChar).length := by
  induction l with
  | nil => simp
  | cons c rest ih =>
    rw [List.flatMap_cons, List.length_append, List.length_cons]
    have := escChar_len_pos c
    omega

theorem jsonString_len (s : String) :
    s.length + 2 ≤ (jsonString s).length := by
  rw [jsonString]
  simp only [List.length_append, List.length_cons, List.length_singleton]
  have := flatMap_escChar_len s.data
  rw [String.length]
  omega

theorem sizeOf_children_lt_item (i n : String) (k : FSKind) (p : String)
    (s : Option Nat) (lm : Nat) (c : Option String)
    (l' : List FileSystemItem) :
    sizeOf l' < sizeOf (FileSystemItem.mk i n k p s lm c (some l')) := by
  simp only [FileSystemItem.mk.sizeOf_spec, Option.some.sizeOf_spec]
  omega

theorem contentSumForest_cons (x : FileSystemItem)
    (rest : List FileSystemItem) :
    contentSumForest (x :: rest)
      = contentSumForest [x] + contentSumForest rest := by
  match x with
  | .mk i n k p s lm c cs =>
    cases c <;> cases cs <;>
      (simp only [contentSumForest]; try omega)

theorem jsonItem_len_bound (x : FileSystemItem)
    (hch : ∀ l', sizeOf l' < sizeOf x →
      contentSumForest l' ≤ (jsonItems l').length) :
    contentSumForest [x] ≤ (jsonItem x).length := by
  match x with
  | .mk i n k p s lm c cs =>
    cases s with
    | none =>
      cases c with
      | none =>
        cases cs with
        | none =>
          rw [contentSumForest, contentSumForest, jsonItem]
          simp only [List.length_append, List.length_cons]
          split
          · omega
          · omega
        | some l' =>
          have hl := hch l' (sizeOf_children_lt_item i n k p none lm none l')
          rw [contentSumForest, contentSumForest, jsonItem]
          simp only [List.length_append, List.length_cons,
            List.length_singleton]
          split
          · omega
          · omega
      | some t =>
        cases cs with
        | none =>
          have ht := jsonString_len t
          rw [contentSumForest, contentSumForest, jsonItem]
          simp only [List.length_append, List.length_cons]
          split
          · omega
          · omega
        | some l' =>
          have hl := hch l'
            (sizeOf_children_lt_item i n k p none lm (some t) l')
          have ht := jsonString_len t
          rw [contentSumForest, contentSumForest, jsonItem]
          simp only [List.length_append, List.length_cons,
            List.length_singleton]
          split
          · omega
          · omega
    | some v =>
      cases c with
      | none =>
        cases cs with
        | none =>
          rw [contentSumForest, contentSumForest, jsonItem]
          simp only [List.length_append, List.length_cons]
          split
          · omega
          · omega
        | some l' =>
          have hl := hch l'
            (sizeOf_children_lt_item i n k p (some v) lm none l')
          rw [contentSumForest, contentSumForest, jsonItem]
          simp only [List.length_append, List.length_cons,
            List.length_singleton]
          split
          · omega
          · omega
      | some t =>
        cases cs with
        | none =>
          have ht := jsonString_len t
          rw [contentSumForest, contentSumForest, jsonItem]
          simp only [List.length_append, List.length_cons]
          split
          · omega
          · omega
        | some l' =>
          have hl := hch l'
            (sizeOf_children_lt_item i n k p (some v) lm (some t) l')
          have ht := jsonString_len t
          rw [contentSumForest, contentSumForest, jsonItem]
          simp only [List.length_append, List.length_cons,
            List.length_singleton]
          split
          · omega
          · omega

theorem sizeOf_head_lt (x : FileSystemItem) (rest : List FileSystemItem) :
    sizeOf x < sizeOf (x :: rest) := by
  simp only [List.cons.sizeOf_spec]
  omega

theorem jsonItems_len_ge :
    ∀ l : List FileSystemItem, contentSumForest l ≤ (jsonItems l).length := by
  refine forest_ind _ ?_
  intro l IH
  match l with
  | [] =>
    rw [contentSumForest, jsonItems]
    exact Nat.le_refl 0
  | [x] =>
    rw [jsonItems]
    exact jsonItem_len_bound x
      (fun l' hl' => IH l' (Nat.lt_trans hl' (sizeOf_head_lt x [])))
  | x :: y :: rest =>
    rw [jsonItems, contentSumForest_cons]
    have h1 := jsonItem_len_bound x
      (fun l' hl' => IH l' (Nat.lt_trans hl' (sizeOf_head_lt x (y :: rest))))
    have h2 := IH (y :: rest) (sizeOf_rest_lt _ _)
    simp only [List.length_append, List.length_cons]
    omega

theorem jsonForest_len_gt (l : List FileSystemItem) :
    contentSumForest l < (jsonForest l).length := by
  rw [jsonForest]
  simp only [List.length_append, List.length_cons, List.length_singleton]
  have := jsonItems_len_ge l
  omega

/-! ### `saveCurrentProject` -/

/-- Embeds `saveCurrentProject`: nothing happens without a current project
or when the prompt returns an empty (falsy) name; otherwise the record is
built with `totalSize := JSON.stringify(currentProject).length`. -/
def saveCurrentProject (nowMs : Nat) (idStr projectName : String)
    (currentProject : List FileSystemItem) : Option SavedProject :=
  if currentProject.length = 0 then none
  else if projectName = "" then none
  else some
    { id := idStr, name := projectName, files := currentProject,
      lastOpened := nowMs, createdAt := nowMs,
      totalSize := (jsonForest currentProject).length }

/-- Claim C9 (amended): the record the directory upload builds stores the
sum of `content.length` over the admitted-and-read candidates — which, as
the counterexample shows, can strictly exceed the content of the tree that
was actually linked — and the record `saveCurrentProject` builds stores the
length of the JSON serialization of the tree, which strictly exceeds the
content-length sum of its file nodes. -/
theorem totalSize_accounting (now : Nat) (files : List UploadFile)
    (nowMs : Nat) (idStr projectName : String)
    (currentProject : List FileSystemItem) (P : SavedProject)
    (hsave : saveCurrentProject nowMs idStr projectName currentProject
      = some P) :
    (runUpload now files).totalSize = admittedContentSum files ∧
    P.totalSize = (jsonForest P.files).length ∧
    contentSumForest P.files < P.totalSize := by
  refine ⟨runUpload_totalSize now files, ?_, ?_⟩
  · rw [saveCurrentProject] at hsave
    split at hsave
    · exact absurd hsave (Option.noConfusion)
    · split at hsave
      · exact absurd hsave (Option.noConfusion)
      · have := Option.some.inj hsave
        subst this
        rfl
  · rw [saveCurrentProject] at hsave
    split at hsave
    · exact absurd hsave (Option.noConfusion)
    · split at hsave
      · exact absurd hsave (Option.noConfusion)
      · have := Option.some.inj hsave
        subst this
        exact jsonForest_len_gt currentProject

/-! ### Counterexample and witness for C9 -/

/-- Collision batch: the first candidate creates the file node `a/b`; the
second candidate's parent lookup then hits that file, whose `children` is
undefined, so the second file is read and counted but never linked. -/
def cexAB : UploadFile :=
  { webkitRelativePath := "a/b", name := "b", size := 1, type := "",
    lastModified := 0, text := "" }

def cexABC : UploadFile :=
  { webkitRelativePath := "a/b/c.ts", name := "c.ts", size := 3, type := "",
    lastModified := 0, text := "xyz" }

/-- A one-file project whose single file has empty content. -/
def demoTreeC9 : List FileSystemItem :=
  [FileSystemItem.mk "a" "a" .file "a" none 0 (some "") none]

/-- Counterexample to claim C9.  Upload half: on the batch
`[a/b, a/b/c.ts]` the record stores `totalSize = 3` (the content of
`c.ts` was read and counted), but the forest reachable from the root
nodes holds no content at all, because the parent lookup for `c.ts` hit
the file node `a/b` and the child was silently dropped.  Save half: for a
project whose one file has empty content (content sum 0),
`saveCurrentProject` stores the length of the JSON serialization, 103. -/
theorem totalSize_accounting_cex :
    (runUpload 0 [cexAB, cexABC]).totalSize = 3 ∧
    contentSumForest (uploadTree (runUpload 0 [cexAB, cexABC])) = 0 ∧
    (∃ P, saveCurrentProject 0 "p1" "proj" demoTreeC9 = some P ∧
      contentSumForest P.files = 0 ∧ P.totalSize = 103) := by
  refine ⟨by decide, ?_, ?_⟩
  · have h1 : (runUpload 0 [cexAB, cexABC]).nodes =
        [{ id := "a", name := "a", kind := .folder, path := "a",
           size := none, lastModified := 0, content := none,
           children := some [1] },
         { id := "a/b", name := "b", kind := .file, path := "a/b",
           size := some 1, lastModified := 0, content := none,
           children := none },
         { id := "a/b/c.ts", name := "c.ts", kind := .file,
           path := "a/b/c.ts", size := some 3, lastModified := 0,
           content := some "xyz", children := none }] := by decide
    have h2 : (runUpload 0 [cexAB, cexABC]).projectFiles = [0] := by decide
    rw [uploadTree, h1, h2]
    simp [matForest, contentSumForest]
  · refine ⟨_, rfl, ?_, ?_⟩
    · show contentSumForest demoTreeC9 = 0
      rw [demoTreeC9]
      simp only [contentSumForest]
      decide
    · show (jsonForest demoTreeC9).length = 103
      rw [demoTreeC9, jsonForest]
      simp only [jsonItems, jsonItem]
      decide

/-- Witness for the amended C9 at a concrete saved project: the upload
record of the empty batch counts nothing, and the saved record of the
one-file project stores the serialization length, which exceeds the
content sum. -/
theorem totalSize_accounting_witness :
    (runUpload 0 []).totalSize = admittedContentSum [] ∧
    ({ id := "p1", name := "proj", files := demoTreeC9, lastOpened := 0,
       createdAt := 0,
       totalSize := (jsonForest demoTreeC9).length } : SavedProject).totalSize
      = (jsonForest demoTreeC9).length ∧
    contentSumForest demoTreeC9
      < ({ id := "p1", name := "proj", files := demoTreeC9, lastOpened := 0,
           createdAt := 0,
           totalSize := (jsonForest demoTreeC9).length }
          : SavedProject).totalSize :=
  totalSize_accounting 0 [] 0 "p1" "proj" demoTreeC9 _ rfl

end Intellicode
